import Mathlib

/-!
Verification of the hikextractor DVR forensic extractor.

Shallow embedding of the core of `src/hikextractor.py` and
`src/hikvision_parser.py`: the byte-level helpers (`to_uint8`,
`to_uint32`, `to_uint64`, `find_in_bytes`), the master-block decoder
(`parse_master_block`), the HIKBTREE index traversal (`parse_hbt_entry`,
`parse_hbtree`), the MPEG-PS carver (`export_footage_from_block`), the
filename collision resolver (`rename_file_if_exists`) and the physical
ordering used by `export_all_videos`.

Modelling conventions:
- a byte buffer (Python `bytes` / `mmap` slice) is a `List Nat`, each
  element one byte;
- Python slicing `b[a:c]` is `listSlice` (lenient at the ends, exactly
  as in Python);
- `struct.unpack` raising `struct.error` on a short buffer is modelled
  by the readers returning `none`; a raised exception is an `Except`
  error value;
- a `datetime` built from a u32 is modelled by the u32 seconds value;
- the carver's byte sink is modelled as an accumulator: the returned
  list is the concatenation of everything written (sink writes are
  assumed to succeed);
- unbounded Python `while` loops are given an explicit fuel argument;
  every top-level entry point passes fuel that is proved sufficient, so
  the embedded functions compute by kernel reduction.
-/

namespace Hik

/-- ASCII bytes of `"HIKVISION@HANGZHOU"` (`SIGNATURE` in the source). -/
def SIGNATURE : List Nat :=
  [72, 73, 75, 86, 73, 83, 73, 79, 78, 64, 72, 65, 78, 71, 90, 72, 79, 85]

/-- ASCII bytes of `"HIKBTREE"` (`HIKBTREE_SIGNATURE` in the source). -/
def HIKBTREE_SIGNATURE : List Nat := [72, 73, 75, 66, 84, 82, 69, 69]

/-- The MPEG-PS pack start code `00 00 01 BA` (`BA_NAL` in the source). -/
def BA_NAL : List Nat := [0, 0, 1, 0xBA]

/-- Python slicing `l[a:b]` for `0 ≤ a ≤ b` (lenient past the end). -/
def listSlice (l : List Nat) (a b : Nat) : List Nat :=
  (l.drop a).take (b - a)

/-- `to_uint8(buff, offset)`: `struct.unpack("B", buff[o:o+1])`; `none`
models the `struct.error` raised when fewer than 1 byte remains. -/
def to_uint8 (buff : List Nat) (o : Nat) : Option Nat :=
  match (buff.drop o).take 1 with
  | [b0] => some b0
  | _ => none

/-- `to_uint32(buff, offset)`: little-endian u32, `none` on short data. -/
def to_uint32 (buff : List Nat) (o : Nat) : Option Nat :=
  match (buff.drop o).take 4 with
  | [b0, b1, b2, b3] => some (b0 + 256 * b1 + 65536 * b2 + 16777216 * b3)
  | _ => none

/-- `to_uint64(buff, offset)`: little-endian u64, `none` on short data. -/
def to_uint64 (buff : List Nat) (o : Nat) : Option Nat :=
  match (buff.drop o).take 8 with
  | [b0, b1, b2, b3, b4, b5, b6, b7] =>
      some (b0 + 256 * b1 + 65536 * b2 + 16777216 * b3 +
        4294967296 * b4 + 1099511627776 * b5 + 281474976710656 * b6 +
        72057594037927936 * b7)
  | _ => none

/-- `to_datetime(buff, offset)`: the timestamp is modelled by its u32
seconds-since-epoch value (UTC). -/
def to_datetime (buff : List Nat) (o : Nat) : Option Nat :=
  to_uint32 buff o

/-- Whether the needle `what` occurs in `buff` at position `i`
(Python `bytes.find` match condition at one index). -/
def listMatchAt (buff what : List Nat) (i : Nat) : Bool :=
  decide ((buff.drop i).take what.length = what)

/-- Scan for the first match of `what` at `i, i+1, ...`; structural fuel
makes the scan computable, `firstMatch` supplies enough fuel to cover
every position of the buffer. -/
def fmfAux (buff what : List Nat) : Nat → Nat → Option Nat
  | _, 0 => none
  | i, fuel + 1 =>
      if listMatchAt buff what i then some i
      else fmfAux buff what (i + 1) fuel

/-- Python `buff.find(what)`: index of the first match, or `none`. -/
def firstMatch (buff what : List Nat) : Option Nat :=
  fmfAux buff what 0 (buff.length + 1)

/-- `find_in_bytes(buff, what, start, size)` from the source: search the
slice `buff[start : start+size]` and translate a hit back to an absolute
offset; the Python `-1` result is modelled by `none`. -/
def find_in_bytes (buff what : List Nat) (start size : Nat) : Option Nat :=
  match firstMatch ((buff.drop start).take size) what with
  | none => none
  | some r => some (r + start)

end Hik

namespace Hik

/-! ### Specification lemmas for the bounded search -/

theorem listMatchAt_length {buff what : List Nat} {i : Nat}
    (hw : what ≠ []) (h : listMatchAt buff what i = true) :
    i + what.length ≤ buff.length := by
  simp only [listMatchAt, decide_eq_true_eq] at h
  have hlen := congrArg List.length h
  simp only [List.length_take, List.length_drop] at hlen
  have hpos : 0 < what.length := List.length_pos.mpr hw
  rcases Nat.le_total what.length (buff.length - i) with hle | hle
  · omega
  · rw [min_eq_right hle] at hlen
    omega

theorem listMatchAt_false_of_big {buff what : List Nat} {i : Nat}
    (hw : what ≠ []) (h : buff.length < i + what.length) :
    listMatchAt buff what i = false := by
  by_contra hc
  rw [Bool.not_eq_false] at hc
  have := listMatchAt_length hw hc
  omega

theorem fmfAux_some {buff what : List Nat} :
    ∀ {fuel i r : Nat}, fmfAux buff what i fuel = some r →
      i ≤ r ∧ r < i + fuel ∧ listMatchAt buff what r = true ∧
        ∀ j, i ≤ j → j < r → listMatchAt buff what j = false := by
  intro fuel
  induction fuel with
  | zero => intro i r h; simp [fmfAux] at h
  | succ n ih =>
    intro i r h
    rw [fmfAux] at h
    by_cases hm : listMatchAt buff what i = true
    · rw [if_pos hm] at h
      cases h
      exact ⟨le_refl _, by omega, hm, fun j h1 h2 => by omega⟩
    · rw [if_neg hm] at h
      obtain ⟨h1, h2, h3, h4⟩ := ih h
      refine ⟨by omega, by omega, h3, fun j hj1 hj2 => ?_⟩
      rcases Nat.eq_or_lt_of_le hj1 with rfl | hlt
      · exact Bool.not_eq_true _ ▸ hm
      · exact h4 j hlt hj2

theorem fmfAux_none {buff what : List Nat} :
    ∀ {fuel i : Nat}, fmfAux buff what i fuel = none →
      ∀ j, i ≤ j → j < i + fuel → listMatchAt buff what j = false := by
  intro fuel
  induction fuel with
  | zero => intro i _ j h1 h2; omega
  | succ n ih =>
    intro i h j h1 h2
    rw [fmfAux] at h
    by_cases hm : listMatchAt buff what i = true
    · rw [if_pos hm] at h; cases h
    · rw [if_neg hm] at h
      rcases Nat.eq_or_lt_of_le h1 with rfl | hlt
      · exact Bool.not_eq_true _ ▸ hm
      · exact ih h j hlt (by omega)

theorem fmfAux_isSome (buff what : List Nat) :
    ∀ (fuel i r : Nat), listMatchAt buff what r = true → i ≤ r →
      r < i + fuel → ∃ r', r' ≤ r ∧ fmfAux buff what i fuel = some r' := by
  intro fuel
  induction fuel with
  | zero => intro i r _ _ _; omega
  | succ n ih =>
    intro i r hr h1 h2
    rw [fmfAux]
    by_cases hm : listMatchAt buff what i = true
    · exact ⟨i, h1, by rw [if_pos hm]⟩
    · rw [if_neg hm]
      rcases Nat.eq_or_lt_of_le h1 with rfl | hlt
      · exact absurd hr hm
      · obtain ⟨r', hr1, hr2⟩ := ih (i + 1) r hr hlt (by omega)
        exact ⟨r', hr1, hr2⟩

/-- Matching inside a Python slice `buff[s : s+n]` is matching in `buff`
at the translated position, provided the needle fits in the window. -/
theorem listMatchAt_slice {D what : List Nat} (hw : what ≠ [])
    (s n i : Nat) :
    listMatchAt ((D.drop s).take n) what i = true ↔
      (i + what.length ≤ n ∧ listMatchAt D what (s + i) = true) := by
  simp only [listMatchAt, decide_eq_true_eq]
  rw [List.drop_take, List.drop_drop, List.take_take]
  have hpos : 0 < what.length := List.length_pos.mpr hw
  rcases Nat.lt_or_ge (n - i) what.length with hlt | hle
  · rw [min_eq_right (Nat.le_of_lt hlt)]
    constructor
    · intro h
      exfalso
      have hlen := congrArg List.length h
      simp only [List.length_take, List.length_drop] at hlen
      have h2 : what.length ≤ n - i := by
        rw [← hlen]; exact Nat.min_le_left _ _
      omega
    · intro ⟨h1, _⟩
      exfalso
      omega
  · rw [min_eq_left hle]
    constructor
    · intro h
      exact ⟨by omega, h⟩
    · exact fun h => h.2

theorem find_in_bytes_some_iff {D what : List Nat} (hw : what ≠ [])
    {s n r : Nat} :
    find_in_bytes D what s n = some r ↔
      (s ≤ r ∧ r + what.length ≤ s + n ∧ listMatchAt D what r = true ∧
        ∀ j, s ≤ j → j < r → listMatchAt D what j = false) := by
  unfold find_in_bytes firstMatch
  constructor
  · intro h
    cases hfm : fmfAux ((D.drop s).take n) what 0 (((D.drop s).take n).length + 1) with
    | none => rw [hfm] at h; cases h
    | some r' =>
      rw [hfm] at h
      cases h
      obtain ⟨_, _, hm, hmin⟩ := fmfAux_some hfm
      rw [listMatchAt_slice hw] at hm
      have hm2 := hm.2
      rw [Nat.add_comm s r'] at hm2
      refine ⟨by omega, by omega, hm2, ?_⟩
      intro j hj1 hj2
      have hj' : j - s < r' := by omega
      have := hmin (j - s) (Nat.zero_le _) hj'
      by_contra hc
      rw [Bool.not_eq_false] at hc
      have hm2 : listMatchAt ((D.drop s).take n) what (j - s) = true := by
        rw [listMatchAt_slice hw]
        constructor
        · have hw' : 0 < what.length := List.length_pos.mpr hw
          omega
        · have : s + (j - s) = j := by omega
          rw [this]; exact hc
      rw [this] at hm2
      cases hm2
  · intro ⟨h1, h2, h3, h4⟩
    have hm : listMatchAt ((D.drop s).take n) what (r - s) = true := by
      rw [listMatchAt_slice hw]
      refine ⟨by omega, ?_⟩
      have : s + (r - s) = r := by omega
      rw [this]; exact h3
    have hb : r - s < ((D.drop s).take n).length + 1 := by
      have := listMatchAt_length hw hm
      omega
    obtain ⟨r', hr1, hr2⟩ :=
      fmfAux_isSome ((D.drop s).take n) what (((D.drop s).take n).length + 1)
        0 (r - s) hm (Nat.zero_le _) (by omega)
    rw [hr2]
    obtain ⟨_, _, hm', _⟩ := fmfAux_some hr2
    rw [listMatchAt_slice hw] at hm'
    rcases Nat.eq_or_lt_of_le hr1 with heq | hlt
    · subst heq
      show some (r - s + s) = some r
      congr 1
      omega
    · exfalso
      have := h4 (s + r') (by omega) (by omega)
      rw [hm'.2] at this
      cases this

theorem find_in_bytes_none_iff {D what : List Nat} (hw : what ≠ [])
    {s n : Nat} :
    find_in_bytes D what s n = none ↔
      ∀ j, s ≤ j → j + what.length ≤ s + n → listMatchAt D what j = false := by
  unfold find_in_bytes firstMatch
  constructor
  · intro h j hj1 hj2
    cases hfm : fmfAux ((D.drop s).take n) what 0 (((D.drop s).take n).length + 1) with
    | some r' => rw [hfm] at h; cases h
    | none =>
      by_contra hc
      rw [Bool.not_eq_false] at hc
      have hm : listMatchAt ((D.drop s).take n) what (j - s) = true := by
        rw [listMatchAt_slice hw]
        refine ⟨by omega, ?_⟩
        have : s + (j - s) = j := by omega
        rw [this]; exact hc
      have hb := listMatchAt_length hw hm
      have := fmfAux_none hfm (j - s) (Nat.zero_le _) (by omega)
      rw [hm] at this
      cases this
  · intro h
    cases hfm : fmfAux ((D.drop s).take n) what 0 (((D.drop s).take n).length + 1) with
    | none => rfl
    | some r' =>
      exfalso
      obtain ⟨_, _, hm, _⟩ := fmfAux_some hfm
      rw [listMatchAt_slice hw] at hm
      have := h (s + r') (by omega) (by omega)
      rw [hm.2] at this
      cases this

theorem BA_NAL_ne_nil : BA_NAL ≠ [] := by decide

/-- Bounds extracted from a successful `find_in_bytes` for the pack
start code: used for the carver's termination and contiguity. -/
theorem find_BA_bounds {D : List Nat} {s n r : Nat}
    (h : find_in_bytes D BA_NAL s n = some r) :
    s ≤ r ∧ r + 4 ≤ s + n ∧ r + 4 ≤ D.length ∧
      listMatchAt D BA_NAL r = true := by
  rw [find_in_bytes_some_iff BA_NAL_ne_nil] at h
  obtain ⟨h1, h2, h3, _⟩ := h
  have h4 := listMatchAt_length BA_NAL_ne_nil h3
  exact ⟨h1, h2, h4, h3⟩

end Hik

namespace Hik

/-! ### The program-stream carver (`export_footage_from_block`)

`src/hikextractor.py` lines 268-282 and `src/hikvision_parser.py` lines
160-187.  The two files carry different carvers: the `hikextractor.py`
one never writes past the last delimiting start code, while the
`hikvision_parser.py` one flushes the remaining block tail when no
further start code is found (and its inner search window starts at
`current_offset + len(BA_NAL) = cur + 4`, not `cur + 5`).  The sink is
modelled as an accumulator; `fuel` bounds the loop and the top-level
entry points pass `D.length + 1`, which is never exhausted because every
iteration strictly advances the current offset inside `D`. -/

/-- The `while True` loop of `export_footage_from_block` in
`hikextractor.py`, entered with `start_offset = a`. -/
def export_loopF (D : List Nat) : Nat → Nat → List Nat
  | _, 0 => []
  | a, fuel + 1 =>
    match find_in_bytes D BA_NAL (a + 5) (120 * 1024) with
    | none => []
    | some b =>
      listSlice D a b ++
        (match find_in_bytes D BA_NAL b 512 with
         | none => []
         | some a2 => export_loopF D a2 fuel)

/-- `export_footage_from_block(datablock, outfile)` from
`hikextractor.py`: the list of all bytes written to the sink. -/
def export_footage_from_block (D : List Nat) : List Nat :=
  match find_in_bytes D BA_NAL 0 4096 with
  | none => []
  | some a => export_loopF D a (D.length + 1)

/-- The `while True` loop of `export_footage_from_block` in
`hikvision_parser.py`: on a failed window search it writes
`datablock[current_offset:]` (the block tail) before returning. -/
def export_loop_hvF (D : List Nat) : Nat → Nat → List Nat
  | _, 0 => []
  | cur, fuel + 1 =>
    match find_in_bytes D BA_NAL (cur + 4) (120 * 1024) with
    | none => D.drop cur
    | some e => listSlice D cur e ++ export_loop_hvF D e fuel

/-- `export_footage_from_block(datablock, outfile)` from
`hikvision_parser.py`: the list of all bytes written to the sink. -/
def export_footage_from_block_hv (D : List Nat) : List Nat :=
  match find_in_bytes D BA_NAL 0 4096 with
  | none => []
  | some a => export_loop_hvF D a (D.length + 1)

/-! ### The master block decoder (`parse_master_block`)

`src/hikextractor.py` lines 111-142 (`hikvision_parser.py` lines 67-99
are identical). -/

/-- Errors of the master block decoder: `badMagic` models the raised
`Exception("Wrong master block signature")`, `outOfRange` models the
`struct.error` raised by `struct.unpack` on a short buffer. -/
inductive MErr where
  | badMagic
  | outOfRange
deriving DecidableEq, Repr

/-- `MasterBlock` dataclass; timestamps are u32 epoch seconds. -/
structure MasterBlock where
  signature : List Nat
  version : List Nat
  capacity : Nat
  offset_system_logs : Nat
  size_system_logs : Nat
  offset_video_area : Nat
  size_data_block : Nat
  total_data_blocks : Nat
  offset_hibtree1 : Nat
  size_hibtree1 : Nat
  offset_hibtree2 : Nat
  size_hibtree2 : Nat
  time_system_init : Nat
deriving DecidableEq, Repr

/-- The body of `parse_master_block` after the signature check: the
eleven `struct.unpack` reads in source order; the first short read
raises (`struct.error`, modelled as `outOfRange`). -/
def readMasterFields (master : List Nat) : Except MErr MasterBlock :=
  match to_uint64 master 0x48 with
  | none => Except.error MErr.outOfRange
  | some capacity =>
  match to_uint64 master 0x60 with
  | none => Except.error MErr.outOfRange
  | some offset_system_logs =>
  match to_uint64 master 0x68 with
  | none => Except.error MErr.outOfRange
  | some size_system_logs =>
  match to_uint64 master 0x78 with
  | none => Except.error MErr.outOfRange
  | some offset_video_area =>
  match to_uint64 master 0x88 with
  | none => Except.error MErr.outOfRange
  | some size_data_block =>
  match to_uint32 master 0x90 with
  | none => Except.error MErr.outOfRange
  | some total_data_blocks =>
  match to_uint64 master 0x98 with
  | none => Except.error MErr.outOfRange
  | some offset_hibtree1 =>
  match to_uint32 master 0xA0 with
  | none => Except.error MErr.outOfRange
  | some size_hibtree1 =>
  match to_uint64 master 0xA8 with
  | none => Except.error MErr.outOfRange
  | some offset_hibtree2 =>
  match to_uint32 master 0xB0 with
  | none => Except.error MErr.outOfRange
  | some size_hibtree2 =>
  match to_datetime master 0xF0 with
  | none => Except.error MErr.outOfRange
  | some time_system_init =>
    Except.ok
      { signature := listSlice master 0x10 0x22,
        version := listSlice master 0x30 0x3E,
        capacity := capacity,
        offset_system_logs := offset_system_logs,
        size_system_logs := size_system_logs,
        offset_video_area := offset_video_area,
        size_data_block := size_data_block,
        total_data_blocks := total_data_blocks,
        offset_hibtree1 := offset_hibtree1,
        size_hibtree1 := size_hibtree1,
        offset_hibtree2 := offset_hibtree2,
        size_hibtree2 := size_hibtree2,
        time_system_init := time_system_init }

/-- `parse_master_block(mappedfile)`: slice the 0x160-byte control
region at image offset 0x200, check the signature, then read the
fixed-offset fields in source order. -/
def parse_master_block (mappedfile : List Nat) : Except MErr MasterBlock :=
  let master := listSlice mappedfile 0x200 0x360
  if listSlice master 0x10 0x22 ≠ SIGNATURE then
    Except.error MErr.badMagic
  else
    readMasterFields master

/-! ### The HIKBTREE index traversal (`parse_hbt_entry`, `parse_hbtree`)

`src/hikextractor.py` lines 145-197 and `src/hikvision_parser.py` lines
101-156.  The two files differ only in the page guard: `hikextractor.py`
breaks once `safe_count > 100` (silently), `hikvision_parser.py` breaks
once `safe_count > 1000` and prints
`"Warning: HIKBTREE page limit reached."`.  The `overrun` flag of the
result records that the guard fired (in `hikvision_parser.py` this is
exactly when the warning is printed). -/

/-- Errors of the index traversal: `badIndexMagic` models the raised
`Exception("Wrong HIKBTREE Signature")`, `outOfRange` a `struct.error`
from a read past the end of the image. -/
inductive PErr where
  | badIndexMagic
  | outOfRange
deriving DecidableEq, Repr

/-- `HIKBTREEEntry` dataclass (a segment catalog entry); timestamps are
u32 epoch seconds, `none` when absent. -/
structure HIKBTREEEntry where
  channel : Nat
  has_footage : Bool
  recording : Bool
  start_timestamp : Option Nat
  end_timestamp : Option Nat
  offset_datablock : Nat
deriving DecidableEq, Repr

/-- `parse_hbt_entry(data, offset)`: decode one 48-byte index slot;
`none` is a tombstoned slot (non-zero u64 at `offset + 0x8`).  The four
unconditional reads happen in source order before the branch; the
sentinel `0x7FFFFFFF` in the start field marks an in-progress
recording, otherwise the two timestamps are re-read via `to_datetime`. -/
def parse_hbt_entry (data : List Nat) (offset : Nat) :
    Except PErr (Option HIKBTREEEntry) :=
  match to_uint64 data (offset + 0x8) with
  | none => Except.error PErr.outOfRange
  | some hf =>
  match to_uint8 data (offset + 0x11) with
  | none => Except.error PErr.outOfRange
  | some channel =>
  match to_uint32 data (offset + 0x18) with
  | none => Except.error PErr.outOfRange
  | some dt1 =>
  match to_uint64 data (offset + 0x20) with
  | none => Except.error PErr.outOfRange
  | some offset_datablock =>
  if hf = 0 then
    if dt1 = 0x7FFFFFFF then
      Except.ok (some { channel := channel, has_footage := true,
                        recording := true, start_timestamp := none,
                        end_timestamp := none,
                        offset_datablock := offset_datablock })
    else
      match to_datetime data (offset + 0x18) with
      | none => Except.error PErr.outOfRange
      | some st =>
      match to_datetime data (offset + 0x1C) with
      | none => Except.error PErr.outOfRange
      | some en =>
        Except.ok (some { channel := channel, has_footage := true,
                          recording := false, start_timestamp := some st,
                          end_timestamp := some en,
                          offset_datablock := offset_datablock })
  else
    Except.ok none

/-- The `for i in range(entry_count)` loop of `parse_hbtree`: decode the
slots `i, i+1, ..., i+n-1` of the page whose slot array starts at
`first_entry`, appending live entries in slot order; a raised
`struct.error` propagates. -/
def parse_entries (data : List Nat) (first_entry : Nat) :
    Nat → Nat → Except PErr (List HIKBTREEEntry)
  | _, 0 => Except.ok []
  | i, n + 1 =>
    match parse_hbt_entry data (first_entry + i * 48) with
    | Except.error e => Except.error e
    | Except.ok eo =>
      match parse_entries data first_entry (i + 1) n with
      | Except.error e => Except.error e
      | Except.ok rest =>
        match eo with
        | some entry => Except.ok (entry :: rest)
        | none => Except.ok rest

/-- Result of the page-chain walk: the accumulated catalog, how many
pages were visited (one per `while` iteration), and whether the
`safe_count` guard fired. -/
structure HbtOut where
  entries : List HIKBTREEEntry
  pagesVisited : Nat
  overrun : Bool
deriving DecidableEq, Repr

/-- Result of `parse_hbtree`: either the walk's output or the raised
error together with the number of pages visited before it. -/
inductive HbtRes where
  | ok (out : HbtOut)
  | err (e : PErr) (pages : Nat)
deriving DecidableEq, Repr

/-- The catalog carried by a traversal result (empty on error). -/
def HbtRes.getEntries : HbtRes → List HIKBTREEEntry
  | .ok o => o.entries
  | .err _ _ => []

/-- Pages visited by the traversal before it returned or raised. -/
def HbtRes.pages : HbtRes → Nat
  | .ok o => o.pagesVisited
  | .err _ p => p

/-- The `while True` page loop of `parse_hbtree`.  `limit` is the
`safe_count` bound (100 in `hikextractor.py`, 1000 in
`hikvision_parser.py`).  The structural `fuel` only makes the loop
computable: the guard recursion needs at most `limit + 1` steps, which
is what the entry point passes, so fuel is never exhausted. -/
def hbt_loop (data : List Nat) (limit : Nat) :
    Nat → Nat → List HIKBTREEEntry → Nat → Nat → HbtRes
  | _, _, _, pages, 0 => HbtRes.err PErr.outOfRange pages
  | offset_page, safe_count, acc, pages, fuel + 1 =>
    match to_uint32 data (offset_page + 0x10) with
    | none => HbtRes.err PErr.outOfRange (pages + 1)
    | some entry_count =>
      match to_uint64 data (offset_page + 0x20) with
      | none => HbtRes.err PErr.outOfRange (pages + 1)
      | some next_page =>
        match parse_entries data (offset_page + 0x60) 0 entry_count with
        | Except.error e => HbtRes.err e (pages + 1)
        | Except.ok es =>
          if next_page = 0xFFFFFFFFFFFFFFFF then
            HbtRes.ok ⟨acc ++ es, pages + 1, false⟩
          else if safe_count + 1 > limit then
            HbtRes.ok ⟨acc ++ es, pages + 1, true⟩
          else
            hbt_loop data limit next_page (safe_count + 1) (acc ++ es)
              (pages + 1) fuel

/-- `parse_hbtree(data, masterblock)` with an explicit `safe_count`
bound (the two source files differ only in that constant). -/
def parse_hbtree_core (limit : Nat) (data : List Nat)
    (mb : MasterBlock) : HbtRes :=
  if listSlice data (mb.offset_hibtree1 + 0x10) (mb.offset_hibtree1 + 0x18) ≠
      HIKBTREE_SIGNATURE then
    HbtRes.err PErr.badIndexMagic 0
  else
    match to_uint64 data (mb.offset_hibtree1 + 0x58) with
    | none => HbtRes.err PErr.outOfRange 0
    | some offset_page => hbt_loop data limit offset_page 0 [] 0 (limit + 1)

/-- `parse_hbtree` of `hikextractor.py`: guard constant 100, no warning
is printed when the guard fires. -/
def parse_hbtree (data : List Nat) (mb : MasterBlock) : HbtRes :=
  parse_hbtree_core 100 data mb

/-- `parse_hbtree` of `hikvision_parser.py`: guard constant 1000;
`overrun = true` is exactly when it prints
`"Warning: HIKBTREE page limit reached."`. -/
def parse_hbtree_hv (data : List Nat) (mb : MasterBlock) : HbtRes :=
  parse_hbtree_core 1000 data mb

end Hik

namespace Hik

/-! ### Filename collision resolution (`rename_file_if_exists`)

`src/hikextractor.py` lines 529-535.  The filesystem's set of existing
paths is modelled as a list `fs : List (List Char)`; `os.path.exists`
is membership in `fs`.  The Python loop is unbounded; `rename_loop`
carries fuel and `rename_file_if_exists` passes `fs.length + 2`, proved
sufficient because the candidate names are pairwise distinct. -/

/-- Python `filename.rfind(".")`: index of the last `'.'`, or `none`
(Python's `-1`). -/
def pyRfindDot (l : List Char) : Option Nat :=
  (List.range l.length).reverse.find? (fun i => l.getD i 'x' == '.')

/-- The decimal rendering of `count` used by the f-string `f"_{count}"`
(for `count ≥ 1`, exactly Python's decimal digits). -/
def decRepr (n : Nat) : List Char :=
  ((Nat.digits 10 n).map Nat.digitChar).reverse

/-- One candidate name:
`filename[:filename.rfind(".")] + f"_{count}" + filename[filename.rfind("."):]`,
including Python's `rfind == -1` behaviour via negative-index slicing. -/
def mkCandidate (filename : List Char) (count : Nat) : List Char :=
  match pyRfindDot filename with
  | some p => filename.take p ++ '_' :: decRepr count ++ filename.drop p
  | none =>
      filename.take (filename.length - 1) ++ '_' :: decRepr count ++
        filename.drop (filename.length - 1)

/-- The `while os.path.exists(new_filename)` loop. -/
def rename_loop (fs : List (List Char)) (filename : List Char) :
    List Char → Nat → Nat → Option (List Char)
  | _, _, 0 => none
  | new_filename, count, fuel + 1 =>
    if new_filename ∈ fs then
      rename_loop fs filename (mkCandidate filename count) (count + 1) fuel
    else some new_filename

/-- `rename_file_if_exists(filename)` against the existing paths `fs`;
fuel `fs.length + 2` is proved sufficient (`rename_loop_spec`). -/
def rename_file_if_exists (fs : List (List Char)) (filename : List Char) :
    Option (List Char) :=
  rename_loop fs filename filename 1 (fs.length + 2)

/-! ### Physical ordering of the catalog (`export_all_videos`)

`src/hikextractor.py` lines 592-594:
`sorted(entrylist, key=lambda e: e.offset_datablock, reverse=True)` —
a stable descending sort on the data-block offset. -/

/-- The `--physical-order` sort of `export_all_videos`. -/
def sortPhysical (l : List HIKBTREEEntry) : List HIKBTREEEntry :=
  l.mergeSort (fun a b => decide (b.offset_datablock ≤ a.offset_datablock))

end Hik

namespace Hik

/-! ### Carver lemmas -/

theorem BA_NAL_length : BA_NAL.length = 4 := rfl

/-- Adjacent Python slices concatenate. -/
theorem listSlice_append (D : List Nat) {a b e : Nat} (h1 : a ≤ b)
    (h2 : b ≤ e) :
    listSlice D a b ++ listSlice D b e = listSlice D a e := by
  unfold listSlice
  have hd : D.drop b = (D.drop a).drop (b - a) := by
    rw [List.drop_drop]
    congr 1
    omega
  rw [hd]
  have h3 : e - a = (b - a) + (e - b) := by omega
  rw [h3, List.take_add]

theorem listSlice_self (D : List Nat) (a : Nat) : listSlice D a a = [] := by
  unfold listSlice
  simp

/-- A successful search restarted exactly at a known match returns that
match itself: the basis of claim C10. -/
theorem find_at_match {D : List Nat} {b : Nat}
    (h : listMatchAt D BA_NAL b = true) :
    find_in_bytes D BA_NAL b 512 = some b := by
  rw [find_in_bytes_some_iff BA_NAL_ne_nil]
  refine ⟨le_refl b, ?_, h, fun j hj1 hj2 => by omega⟩
  rw [BA_NAL_length]
  omega

theorem export_loopF_none {D : List Nat} {a fuel : Nat}
    (h : find_in_bytes D BA_NAL (a + 5) (120 * 1024) = none) :
    export_loopF D a (fuel + 1) = [] := by
  simp only [export_loopF, h]

theorem export_loopF_some {D : List Nat} {a b a2 fuel : Nat}
    (h1 : find_in_bytes D BA_NAL (a + 5) (120 * 1024) = some b)
    (h2 : find_in_bytes D BA_NAL b 512 = some a2) :
    export_loopF D a (fuel + 1) = listSlice D a b ++ export_loopF D a2 fuel := by
  simp only [export_loopF, h1, h2]

theorem export_loop_hvF_none {D : List Nat} {cur fuel : Nat}
    (h : find_in_bytes D BA_NAL (cur + 4) (120 * 1024) = none) :
    export_loop_hvF D cur (fuel + 1) = D.drop cur := by
  simp only [export_loop_hvF, h]

theorem export_loop_hvF_some {D : List Nat} {cur e fuel : Nat}
    (h : find_in_bytes D BA_NAL (cur + 4) (120 * 1024) = some e) :
    export_loop_hvF D cur (fuel + 1) =
      listSlice D cur e ++ export_loop_hvF D e fuel := by
  simp only [export_loop_hvF, h]

/-- A block whose first 4096 bytes hold no pack-start code produces no
output at all (`hikextractor.py` carver). -/
theorem export_footage_from_block_none {D : List Nat}
    (h : find_in_bytes D BA_NAL 0 4096 = none) :
    export_footage_from_block D = [] := by
  unfold export_footage_from_block
  rw [h]

/-- The hikextractor carver loop only ever emits one contiguous slice of
the data block starting at its entry offset (any fuel). -/
theorem export_loopF_contig (D : List Nat) :
    ∀ (fuel a : Nat), ∃ e, a ≤ e ∧ export_loopF D a fuel = listSlice D a e := by
  intro fuel
  induction fuel with
  | zero =>
    intro a
    exact ⟨a, le_refl a, by rw [listSlice_self]; rfl⟩
  | succ n ih =>
    intro a
    cases hf : find_in_bytes D BA_NAL (a + 5) (120 * 1024) with
    | none =>
      exact ⟨a, le_refl a, by rw [export_loopF_none hf, listSlice_self]⟩
    | some b =>
      have hb := find_BA_bounds hf
      have hfb : find_in_bytes D BA_NAL b 512 = some b :=
        find_at_match hb.2.2.2
      obtain ⟨e, he1, he2⟩ := ih b
      refine ⟨e, by omega, ?_⟩
      rw [export_loopF_some hf hfb, he2]
      exact listSlice_append D (by omega) he1

end Hik

namespace Hik

/-! ### Claim C1 -/

/-- Counterexample to claim C1 as stated: in the
`hikvision_parser.py` carver, a data block whose only pack-start code is
at offset 0 (so no further code lies in the 120 KiB window from
offset 5) still gets its whole region from the start code to
end-of-block written to the sink. -/
theorem c1_counterexample :
    find_in_bytes [0, 0, 1, 0xBA, 9, 9] BA_NAL 0 4096 = some 0 ∧
    find_in_bytes [0, 0, 1, 0xBA, 9, 9] BA_NAL (0 + 5) (120 * 1024) = none ∧
    export_footage_from_block_hv [0, 0, 1, 0xBA, 9, 9] =
      [0, 0, 1, 0xBA, 9, 9] ∧
    ([0, 0, 1, 0xBA, 9, 9] : List Nat) ≠ [] := by
  refine ⟨by decide, by decide, ?_, by decide⟩
  have h0 : find_in_bytes [0, 0, 1, 0xBA, 9, 9] BA_NAL 0 4096 = some 0 := by
    decide
  have h1 : find_in_bytes [0, 0, 1, 0xBA, 9, 9] BA_NAL (0 + 4) (120 * 1024) =
      none := by decide
  show export_footage_from_block_hv [0, 0, 1, 0xBA, 9, 9] =
    [0, 0, 1, 0xBA, 9, 9]
  unfold export_footage_from_block_hv
  rw [h0]
  show export_loop_hvF [0, 0, 1, 0xBA, 9, 9] 0 (6 + 1) = [0, 0, 1, 0xBA, 9, 9]
  rw [export_loop_hvF_none h1]
  rfl

/-- C1 (amended): the `hikextractor.py` carver does terminate without
writing anything when no further pack-start code lies in the 120 KiB
window starting at `a + 5`; the `hikvision_parser.py` carver instead
writes the whole remaining region `D[cur:]` when its window (which
starts at `cur + 4`) has no further code. -/
theorem c1_carver_tail_behaviour (D : List Nat) (a : Nat) :
    (find_in_bytes D BA_NAL (a + 5) (120 * 1024) = none →
      export_loopF D a (D.length + 1) = [] ∧
        (find_in_bytes D BA_NAL 0 4096 = some a →
          export_footage_from_block D = [])) ∧
    (find_in_bytes D BA_NAL (a + 4) (120 * 1024) = none →
      export_loop_hvF D a (D.length + 1) = D.drop a) := by
  constructor
  · intro h
    constructor
    · exact export_loopF_none h
    · intro h0
      unfold export_footage_from_block
      rw [h0]
      exact export_loopF_none h
  · intro h
    exact export_loop_hvF_none h

/-- Witness for C1's amended theorem at the concrete block
`[0, 0, 1, 0xBA, 9, 9]` with `a = 0`. -/
theorem c1_carver_tail_behaviour_witness :
    export_footage_from_block [0, 0, 1, 0xBA, 9, 9] = [] ∧
    export_loop_hvF [0, 0, 1, 0xBA, 9, 9] 0
        (([0, 0, 1, 0xBA, 9, 9] : List Nat).length + 1) =
      ([0, 0, 1, 0xBA, 9, 9] : List Nat).drop 0 :=
  ⟨((c1_carver_tail_behaviour [0, 0, 1, 0xBA, 9, 9] 0).1 (by decide)).2
      (by decide),
   (c1_carver_tail_behaviour [0, 0, 1, 0xBA, 9, 9] 0).2 (by decide)⟩

/-! ### Claim C10 -/

/-- C10: after the hikextractor carver locates a delimiting pack-start
code at `b`, the follow-up `find(D, BA_NAL, b, 512)` always succeeds and
returns `b` itself, so the exit branch after it is unreachable and the
carver's total output is a single contiguous byte range of `D` starting
at the first pack-start code. -/
theorem c10_followup_find_returns_b (D : List Nat) (a : Nat) :
    (listMatchAt D BA_NAL a = true →
      find_in_bytes D BA_NAL a 512 = some a) ∧
    (find_in_bytes D BA_NAL 0 4096 = some a →
      ∃ e, a ≤ e ∧ export_footage_from_block D = listSlice D a e) := by
  constructor
  · exact find_at_match
  · intro h
    unfold export_footage_from_block
    rw [h]
    exact export_loopF_contig D (D.length + 1) a

/-- Witness for C10 at a concrete two-packet block. -/
theorem c10_followup_find_returns_b_witness :
    find_in_bytes [0, 0, 1, 0xBA, 9, 0, 0, 1, 0xBA] BA_NAL 0 512 = some 0 ∧
    ∃ e, 0 ≤ e ∧
      export_footage_from_block [0, 0, 1, 0xBA, 9, 0, 0, 1, 0xBA] =
        listSlice [0, 0, 1, 0xBA, 9, 0, 0, 1, 0xBA] 0 e :=
  ⟨(c10_followup_find_returns_b [0, 0, 1, 0xBA, 9, 0, 0, 1, 0xBA] 0).1
      (by decide),
   (c10_followup_find_returns_b [0, 0, 1, 0xBA, 9, 0, 0, 1, 0xBA] 0).2
      (by decide)⟩

end Hik

namespace Hik

/-! ### Claim C3 -/

/-- A pack-start match at `j` forces byte `j + 3` to be `0xBA`. -/
theorem matchAt_byte3 {D : List Nat} {j : Nat}
    (h : listMatchAt D BA_NAL j = true) : D.getD (j + 3) 0 = 0xBA := by
  have hlen := listMatchAt_length BA_NAL_ne_nil h
  rw [BA_NAL_length] at hlen
  simp only [listMatchAt, decide_eq_true_eq, BA_NAL_length] at h
  have hlt : 3 < ((D.drop j).take 4).length := by
    rw [List.length_take, List.length_drop]
    exact lt_min_iff.mpr ⟨by norm_num, by omega⟩
  have h5 : ((D.drop j).take 4).getD 3 0 = 0xBA := by rw [h]; rfl
  rw [List.getD_eq_getElem _ _ hlt, List.getElem_take, List.getElem_drop] at h5
  rw [List.getD_eq_getElem _ _ (show j + 3 < D.length by omega)]
  exact h5

/-- C3 (amended): the round-trip holds once the whole leading start code
fits in the first 4096-byte search window, i.e. for `k ≤ 4092`: a block
whose only pack-start codes sit at `k` and `k + m` (with `5 ≤ m ≤
120*1024` and the second code fully inside the block) is carved to
exactly `D[k..k+m]`. -/
theorem c3_roundtrip_amended (D : List Nat) (k m : Nat)
    (hk : k ≤ 4092) (hm5 : 5 ≤ m) (hmu : m ≤ 120 * 1024)
    (hlen : k + m + 4 ≤ D.length)
    (htwo : ∀ i, i < D.length →
      (listMatchAt D BA_NAL i = true ↔ (i = k ∨ i = k + m))) :
    export_footage_from_block D = listSlice D k (k + m) := by
  have hBA : BA_NAL.length = 4 := rfl
  have honly : ∀ j, listMatchAt D BA_NAL j = true → (j = k ∨ j = k + m) := by
    intro j hj
    by_cases hjl : j < D.length
    · exact (htwo j hjl).mp hj
    · exfalso
      have hbig := listMatchAt_false_of_big BA_NAL_ne_nil
        (show D.length < j + BA_NAL.length by rw [hBA]; omega)
      rw [hj] at hbig
      cases hbig
  have hmk : listMatchAt D BA_NAL k = true :=
    (htwo k (by omega)).mpr (Or.inl rfl)
  have hmkm : listMatchAt D BA_NAL (k + m) = true :=
    (htwo (k + m) (by omega)).mpr (Or.inr rfl)
  have h1 : find_in_bytes D BA_NAL 0 4096 = some k := by
    rw [find_in_bytes_some_iff BA_NAL_ne_nil]
    refine ⟨Nat.zero_le k, by rw [hBA]; omega, hmk, ?_⟩
    intro j _ hjk
    by_contra hc
    rw [Bool.not_eq_false] at hc
    rcases honly j hc with rfl | rfl
    · omega
    · omega
  have h2 : find_in_bytes D BA_NAL (k + 5) (120 * 1024) = some (k + m) := by
    rw [find_in_bytes_some_iff BA_NAL_ne_nil]
    refine ⟨by omega, by rw [hBA]; omega, hmkm, ?_⟩
    intro j hj1 hj2
    by_contra hc
    rw [Bool.not_eq_false] at hc
    rcases honly j hc with rfl | rfl
    · omega
    · omega
  have h3 : find_in_bytes D BA_NAL (k + m) 512 = some (k + m) :=
    find_at_match hmkm
  have h4 : find_in_bytes D BA_NAL (k + m + 5) (120 * 1024) = none := by
    rw [find_in_bytes_none_iff BA_NAL_ne_nil]
    intro j hj1 _
    by_contra hc
    rw [Bool.not_eq_false] at hc
    rcases honly j hc with rfl | rfl
    · omega
    · omega
  unfold export_footage_from_block
  rw [h1]
  show export_loopF D k (D.length + 1) = listSlice D k (k + m)
  obtain ⟨f, hf⟩ : ∃ f, D.length = f + 1 := ⟨D.length - 1, by omega⟩
  rw [hf]
  rw [export_loopF_some h2 h3]
  rw [export_loopF_none h4]
  rw [List.append_nil]

/-- Witness for C3's amended theorem: codes at offsets 0 and 5,
`D = [00 00 01 BA 55 00 00 01 BA]`, carved output `D[0..5]`. -/
theorem c3_roundtrip_amended_witness :
    export_footage_from_block [0, 0, 1, 0xBA, 0x55, 0, 0, 1, 0xBA] =
      listSlice [0, 0, 1, 0xBA, 0x55, 0, 0, 1, 0xBA] 0 5 :=
  c3_roundtrip_amended [0, 0, 1, 0xBA, 0x55, 0, 0, 1, 0xBA] 0 5
    (by decide) (by decide) (by decide) (by decide) (by decide)

/-- The tail of the C3 counterexample block. -/
def c3tail : List Nat := [0, 0, 1, 0xBA, 255, 0, 0, 1, 0xBA]

/-- The C3 counterexample block: pack-start codes at 4093 and 4098 only;
4093 < 4096, yet the code straddles the first window's end. -/
def c3img : List Nat := List.replicate 4093 0 ++ c3tail

theorem c3img_length : c3img.length = 4102 := by
  rw [c3img, List.length_append, List.length_replicate]
  rfl

theorem c3img_byte_BA {n : Nat} (hn : n < 4102)
    (h : c3img.getD n 0 = 0xBA) : n = 4096 ∨ n = 4101 := by
  by_cases hlt : n < 4093
  · exfalso
    rw [c3img,
      List.getD_append _ _ _ n (by rw [List.length_replicate]; omega)] at h
    rw [List.getD_eq_getElem _ _ (by rw [List.length_replicate]; omega)] at h
    rw [List.getElem_replicate] at h
    exact absurd h (by norm_num)
  · push_neg at hlt
    rw [c3img,
      List.getD_append_right _ _ _ n (by rw [List.length_replicate]; omega)] at h
    rw [List.length_replicate] at h
    rcases (show n - 4093 = 0 ∨ n - 4093 = 1 ∨ n - 4093 = 2 ∨ n - 4093 = 3 ∨
        n - 4093 = 4 ∨ n - 4093 = 5 ∨ n - 4093 = 6 ∨ n - 4093 = 7 ∨
        n - 4093 = 8 by omega) with
      h0 | h0 | h0 | h0 | h0 | h0 | h0 | h0 | h0
    · rw [h0] at h; exact absurd h (by decide)
    · rw [h0] at h; exact absurd h (by decide)
    · rw [h0] at h; exact absurd h (by decide)
    · left; omega
    · rw [h0] at h; exact absurd h (by decide)
    · rw [h0] at h; exact absurd h (by decide)
    · rw [h0] at h; exact absurd h (by decide)
    · rw [h0] at h; exact absurd h (by decide)
    · right; omega

theorem c3img_drop_4093 : c3img.drop 4093 = c3tail := by
  rw [c3img]
  exact List.drop_left' (by rw [List.length_replicate])

theorem c3img_drop_4098 : c3img.drop 4098 = c3tail.drop 5 := by
  have h := List.drop_drop 5 4093 c3img
  rw [c3img_drop_4093] at h
  rw [show (4093 + 5 : Nat) = 4098 from rfl] at h
  exact h.symm

theorem c3img_match_4093 : listMatchAt c3img BA_NAL 4093 = true := by
  simp only [listMatchAt, decide_eq_true_eq, BA_NAL_length]
  rw [c3img_drop_4093]
  decide

theorem c3img_match_4098 : listMatchAt c3img BA_NAL 4098 = true := by
  simp only [listMatchAt, decide_eq_true_eq, BA_NAL_length]
  rw [c3img_drop_4098]
  decide

theorem c3img_two_codes :
    ∀ i, i < c3img.length →
      (listMatchAt c3img BA_NAL i = true ↔ (i = 4093 ∨ i = 4093 + 5)) := by
  intro i hi
  constructor
  · intro h
    have hlen := listMatchAt_length BA_NAL_ne_nil h
    rw [BA_NAL_length, c3img_length] at hlen
    have hb := matchAt_byte3 h
    rcases c3img_byte_BA (by omega) hb with h3 | h3
    · left; omega
    · right; omega
  · intro h
    rcases h with rfl | rfl
    · exact c3img_match_4093
    · exact c3img_match_4098

/-- Counterexample to claim C3 as stated: `c3img` has its two pack-start
codes at `k = 4093 < 4096` and `k + m` with `m = 5`, but the carver
writes nothing — the first 4096-byte window cannot contain the whole
start code, so `find` misses it.  The claim demands the non-empty
`D[4093..4098]`. -/
theorem c3_counterexample :
    (∀ i, i < c3img.length →
      (listMatchAt c3img BA_NAL i = true ↔ (i = 4093 ∨ i = 4093 + 5))) ∧
    4093 < 4096 ∧ (5 : Nat) ≤ 5 ∧ (5 : Nat) ≤ 120 * 1024 ∧
    export_footage_from_block c3img = [] ∧
    listSlice c3img 4093 (4093 + 5) ≠ [] := by
  refine ⟨c3img_two_codes, by norm_num, le_refl 5, by norm_num, ?_, ?_⟩
  · have hnone : find_in_bytes c3img BA_NAL 0 4096 = none := by
      rw [find_in_bytes_none_iff BA_NAL_ne_nil]
      intro j hj1 hj2
      rw [BA_NAL_length] at hj2
      by_contra hc
      rw [Bool.not_eq_false] at hc
      have hlen := listMatchAt_length BA_NAL_ne_nil hc
      rw [BA_NAL_length, c3img_length] at hlen
      have hjl : j < c3img.length := by rw [c3img_length]; omega
      rcases (c3img_two_codes j hjl).mp hc with rfl | rfl
      · omega
      · omega
    exact export_footage_from_block_none hnone
  · show listSlice c3img 4093 (4093 + 5) ≠ []
    unfold listSlice
    rw [c3img_drop_4093]
    decide

end Hik

namespace Hik

/-! ### Index traversal lemmas -/

/-- Every live entry produced by a slot decode is either an in-progress
recording with both timestamps absent, or a completed segment with both
timestamps present. -/
theorem parse_hbt_entry_shape {data : List Nat} {o : Nat}
    {e : HIKBTREEEntry}
    (h : parse_hbt_entry data o = Except.ok (some e)) :
    e.has_footage = true ∧
      ((e.recording = true ∧ e.start_timestamp = none ∧
          e.end_timestamp = none) ∨
        (e.recording = false ∧ (∃ s, e.start_timestamp = some s) ∧
          (∃ t, e.end_timestamp = some t))) := by
  unfold parse_hbt_entry at h
  repeat' split at h
  all_goals try cases h
  · exact ⟨rfl, Or.inl ⟨rfl, rfl, rfl⟩⟩
  · exact ⟨rfl, Or.inr ⟨rfl, ⟨_, rfl⟩, ⟨_, rfl⟩⟩⟩

/-- The only error a slot decode raises is `outOfRange`. -/
theorem parse_hbt_entry_err {data : List Nat} {o : Nat} {err : PErr}
    (h : parse_hbt_entry data o = Except.error err) :
    err = PErr.outOfRange := by
  unfold parse_hbt_entry at h
  repeat' split at h
  all_goals try cases h
  all_goals rfl

/-- Every entry in a page decode comes from some slot decode. -/
theorem parse_entries_mem {data : List Nat} {fe : Nat} :
    ∀ {n i : Nat} {es : List HIKBTREEEntry},
      parse_entries data fe i n = Except.ok es →
      ∀ e ∈ es, ∃ o, parse_hbt_entry data o = Except.ok (some e) := by
  intro n
  induction n with
  | zero =>
    intro i es h e he
    simp only [parse_entries] at h
    injection h with h1
    subst h1
    cases he
  | succ n ih =>
    intro i es h e he
    simp only [parse_entries] at h
    cases hpe : parse_hbt_entry data (fe + i * 48) with
    | error err => rw [hpe] at h; cases h
    | ok eo =>
      rw [hpe] at h
      cases hrest : parse_entries data fe (i + 1) n with
      | error err => rw [hrest] at h; cases h
      | ok rest =>
        rw [hrest] at h
        cases eo with
        | some entry =>
          injection h with h1
          subst h1
          cases he with
          | head => exact ⟨fe + i * 48, hpe⟩
          | tail _ hmem => exact ih hrest e hmem
        | none =>
          injection h with h1
          subst h1
          exact ih hrest e he

/-- The only error a page decode raises is `outOfRange`. -/
theorem parse_entries_err {data : List Nat} {fe : Nat} :
    ∀ {n i : Nat} {err : PErr},
      parse_entries data fe i n = Except.error err →
      err = PErr.outOfRange := by
  intro n
  induction n with
  | zero => intro i err h; simp only [parse_entries] at h; cases h
  | succ n ih =>
    intro i err h
    simp only [parse_entries] at h
    cases hpe : parse_hbt_entry data (fe + i * 48) with
    | error e' =>
      rw [hpe] at h
      injection h with h1
      subst h1
      exact parse_hbt_entry_err hpe
    | ok eo =>
      rw [hpe] at h
      cases hrest : parse_entries data fe (i + 1) n with
      | error e' =>
        rw [hrest] at h
        injection h with h1
        subst h1
        exact ih hrest
      | ok rest =>
        rw [hrest] at h
        cases eo with
        | some entry => cases h
        | none => cases h

end Hik

namespace Hik

/-- Every entry in the page-walk's catalog beyond the accumulator comes
from some slot decode. -/
theorem hbt_loop_mem (data : List Nat) (limit : Nat) :
    ∀ (fuel page count : Nat) (acc : List HIKBTREEEntry) (pages : Nat)
      (out : HbtOut),
      hbt_loop data limit page count acc pages fuel = HbtRes.ok out →
      ∀ e ∈ out.entries,
        e ∈ acc ∨ ∃ o, parse_hbt_entry data o = Except.ok (some e) := by
  intro fuel
  induction fuel with
  | zero =>
    intro page count acc pages out h e he
    simp only [hbt_loop] at h
    cases h
  | succ n ih =>
    intro page count acc pages out h e he
    simp only [hbt_loop] at h
    cases h1 : to_uint32 data (page + 0x10) with
    | none => simp only [h1] at h; cases h
    | some ec =>
      simp only [h1] at h
      cases h2 : to_uint64 data (page + 0x20) with
      | none => simp only [h2] at h; cases h
      | some np =>
        simp only [h2] at h
        cases h3 : parse_entries data (page + 0x60) 0 ec with
        | error err => simp only [h3] at h; cases h
        | ok es =>
          simp only [h3] at h
          by_cases h4 : np = 0xFFFFFFFFFFFFFFFF
          · rw [if_pos h4] at h
            injection h with h5
            subst h5
            rcases List.mem_append.mp he with ha | hb
            · exact Or.inl ha
            · exact Or.inr (parse_entries_mem h3 e hb)
          · rw [if_neg h4] at h
            by_cases h5 : count + 1 > limit
            · rw [if_pos h5] at h
              injection h with h6
              subst h6
              rcases List.mem_append.mp he with ha | hb
              · exact Or.inl ha
              · exact Or.inr (parse_entries_mem h3 e hb)
            · rw [if_neg h5] at h
              rcases ih np (count + 1) (acc ++ es) (pages + 1) out h e he with
                hacc | hslot
              · rcases List.mem_append.mp hacc with ha | hb
                · exact Or.inl ha
                · exact Or.inr (parse_entries_mem h3 e hb)
              · exact Or.inr hslot

/-- The page walk never raises `badIndexMagic`. -/
theorem hbt_loop_err (data : List Nat) (limit : Nat) :
    ∀ (fuel page count : Nat) (acc : List HIKBTREEEntry)
      (pages : Nat) (err : PErr) (pgs : Nat),
      hbt_loop data limit page count acc pages fuel = HbtRes.err err pgs →
      err = PErr.outOfRange := by
  intro fuel
  induction fuel with
  | zero =>
    intro page count acc pages err pgs h
    simp only [hbt_loop] at h
    injection h with h1 h2
    exact h1.symm
  | succ n ih =>
    intro page count acc pages err pgs h
    simp only [hbt_loop] at h
    cases h1 : to_uint32 data (page + 0x10) with
    | none => simp only [h1] at h; injection h with h' _; exact h'.symm
    | some ec =>
      simp only [h1] at h
      cases h2 : to_uint64 data (page + 0x20) with
      | none => simp only [h2] at h; injection h with h' _; exact h'.symm
      | some np =>
        simp only [h2] at h
        cases h3 : parse_entries data (page + 0x60) 0 ec with
        | error e' =>
          simp only [h3] at h
          injection h with h' _
          subst h'
          exact parse_entries_err h3
        | ok es =>
          simp only [h3] at h
          by_cases h4 : np = 0xFFFFFFFFFFFFFFFF
          · rw [if_pos h4] at h; cases h
          · rw [if_neg h4] at h
            by_cases h5 : count + 1 > limit
            · rw [if_pos h5] at h; cases h
            · rw [if_neg h5] at h
              exact ih np (count + 1) (acc ++ es) (pages + 1) err pgs h

/-- Each loop iteration visits one page, so the walk visits at most
`fuel` further pages. -/
theorem hbt_loop_pages (data : List Nat) (limit : Nat) :
    ∀ (fuel page count : Nat) (acc : List HIKBTREEEntry) (pages : Nat),
      (hbt_loop data limit page count acc pages fuel).pages ≤
        pages + fuel := by
  intro fuel
  induction fuel with
  | zero =>
    intro page count acc pages
    simp only [hbt_loop, HbtRes.pages]
    omega
  | succ n ih =>
    intro page count acc pages
    simp only [hbt_loop]
    repeat' split
    all_goals try (simp only [HbtRes.pages]; omega)
    all_goals exact (ih _ _ _ _).trans (by omega)

/-- On a self-pointing page the walk always runs the guard down:
`fuel = limit + 1 - count` iterations, each appending the same page's
entries, and the guard flag is raised. -/
theorem hbt_loop_selfloop (data : List Nat) (limit : Nat) {p n : Nat}
    {es : List HIKBTREEEntry}
    (h1 : to_uint32 data (p + 0x10) = some n)
    (h2 : to_uint64 data (p + 0x20) = some p)
    (h3 : parse_entries data (p + 0x60) 0 n = Except.ok es)
    (hp : p ≠ 0xFFFFFFFFFFFFFFFF) :
    ∀ (fuel count : Nat) (acc : List HIKBTREEEntry) (pages : Nat),
      count + fuel = limit + 1 → 1 ≤ fuel →
      hbt_loop data limit p count acc pages fuel =
        HbtRes.ok ⟨acc ++ (List.replicate fuel es).flatten, pages + fuel,
          true⟩ := by
  intro fuel
  induction fuel with
  | zero => intro count acc pages _ h0; omega
  | succ f ih =>
    intro count acc pages hsum _
    simp only [hbt_loop, h1, h2, h3]
    rw [if_neg hp]
    by_cases hf : f = 0
    · subst hf
      rw [if_pos (by omega)]
      simp [List.replicate]
    · rw [if_neg (by omega)]
      rw [ih (count + 1) (acc ++ es) (pages + 1) (by omega) (by omega)]
      have hj : (acc ++ es) ++ (List.replicate f es).flatten =
          acc ++ (List.replicate (f + 1) es).flatten := by
        rw [List.replicate_succ, List.flatten_cons, List.append_assoc]
      rw [hj, show pages + 1 + f = pages + (f + 1) from by omega]

end Hik

namespace Hik

/-- Every entry in the traversal's catalog is the verbatim decode of
some 48-byte slot of the image. -/
theorem parse_hbtree_core_mem (limit : Nat) (data : List Nat)
    (mb : MasterBlock) :
    ∀ e ∈ (parse_hbtree_core limit data mb).getEntries,
      ∃ o, parse_hbt_entry data o = Except.ok (some e) := by
  intro e he
  unfold parse_hbtree_core at he
  by_cases hsig : listSlice data (mb.offset_hibtree1 + 0x10)
      (mb.offset_hibtree1 + 0x18) ≠ HIKBTREE_SIGNATURE
  · rw [if_pos hsig] at he
    cases he
  · rw [if_neg hsig] at he
    cases hfp : to_uint64 data (mb.offset_hibtree1 + 0x58) with
    | none => simp only [hfp] at he; cases he
    | some p =>
      simp only [hfp] at he
      cases hres : hbt_loop data limit p 0 [] 0 (limit + 1) with
      | err err pgs => simp only [hres, HbtRes.getEntries] at he; cases he
      | ok out =>
        simp only [hres, HbtRes.getEntries] at he
        rcases hbt_loop_mem data limit (limit + 1) p 0 [] 0 out hres e he with
          hacc | hslot
        · cases hacc
        · exact hslot

/-- The traversal visits at most `limit + 1` pages. -/
theorem parse_hbtree_core_pages (limit : Nat) (data : List Nat)
    (mb : MasterBlock) :
    (parse_hbtree_core limit data mb).pages ≤ limit + 1 := by
  unfold parse_hbtree_core
  by_cases hsig : listSlice data (mb.offset_hibtree1 + 0x10)
      (mb.offset_hibtree1 + 0x18) ≠ HIKBTREE_SIGNATURE
  · rw [if_pos hsig]
    simp only [HbtRes.pages]
    omega
  · rw [if_neg hsig]
    cases hfp : to_uint64 data (mb.offset_hibtree1 + 0x58) with
    | none =>
      show (HbtRes.err PErr.outOfRange 0).pages ≤ limit + 1
      simp only [HbtRes.pages]
      omega
    | some p =>
      show (hbt_loop data limit p 0 [] 0 (limit + 1)).pages ≤ limit + 1
      have := hbt_loop_pages data limit (limit + 1) p 0 [] 0
      omega

/-- The traversal fails with `badIndexMagic` exactly when the 8 bytes at
`offset_hibtree1 + 0x10` differ from `HIKBTREE`. -/
theorem parse_hbtree_core_badmagic (limit : Nat) (data : List Nat)
    (mb : MasterBlock) :
    (∃ pgs, parse_hbtree_core limit data mb =
        HbtRes.err PErr.badIndexMagic pgs) ↔
      listSlice data (mb.offset_hibtree1 + 0x10)
        (mb.offset_hibtree1 + 0x18) ≠ HIKBTREE_SIGNATURE := by
  constructor
  · rintro ⟨pgs, h⟩
    by_contra hsig
    unfold parse_hbtree_core at h
    rw [if_neg (not_ne_iff.mpr hsig)] at h
    cases hfp : to_uint64 data (mb.offset_hibtree1 + 0x58) with
    | none =>
      simp only [hfp] at h
      injection h with h1 h2
      cases h1
    | some p =>
      simp only [hfp] at h
      have := hbt_loop_err data limit (limit + 1) p 0 [] 0
        PErr.badIndexMagic pgs h
      cases this
  · intro hsig
    refine ⟨0, ?_⟩
    unfold parse_hbtree_core
    rw [if_pos hsig]

end Hik

namespace Hik

/-! ### Concrete index images for the traversal claims

All built to the on-disk layout `parse_hbtree` expects with
`offset_hibtree1 = 0`: `HIKBTREE` magic at 0x10, first-page pointer (u64
little-endian) at 0x58, one page at 0x100 with entry count at
`page + 0x10`, next-page pointer at `page + 0x20` and 48-byte slots from
`page + 0x60`. -/

/-- A `MasterBlock` whose primary index offset is 0 (other fields are
irrelevant to the traversal). -/
def mb0 : MasterBlock :=
  ⟨[], [], 0, 0, 0, 0, 0, 0, 0, 0, 0, 0, 0⟩

/-- A `MasterBlock` with `size_data_block = 0x100000` and primary index
offset 0 (for claim C5). -/
def mb5 : MasterBlock :=
  ⟨[], [], 0, 0, 0, 0, 0x100000, 0, 0, 0, 0, 0, 0⟩

/-- A live slot: channel 7, start 2, end 1 (reversed timestamps),
data-block offset 5. -/
def c4slot : List Nat :=
  List.replicate 17 0 ++ [7] ++ List.replicate 6 0 ++ [2, 0, 0, 0] ++
    [1, 0, 0, 0] ++ [5, 0, 0, 0, 0, 0, 0, 0] ++ List.replicate 8 0

/-- Index image with one page, one live slot whose start timestamp (2)
exceeds its end timestamp (1). -/
def c4img : List Nat :=
  List.replicate 0x10 0 ++ HIKBTREE_SIGNATURE ++ List.replicate 0x40 0 ++
    [0, 1, 0, 0, 0, 0, 0, 0] ++ List.replicate 0xB0 0 ++
    [1, 0, 0, 0] ++ List.replicate 0xC 0 ++ List.replicate 8 0xFF ++
    List.replicate 0x38 0 ++ c4slot

/-- A live slot: channel 7, start 2, end 3, data-block offset `2^63`. -/
def c5slot : List Nat :=
  List.replicate 17 0 ++ [7] ++ List.replicate 6 0 ++ [2, 0, 0, 0] ++
    [3, 0, 0, 0] ++ [0, 0, 0, 0, 0, 0, 0, 0x80] ++ List.replicate 8 0

/-- Index image with one page, one live slot whose data-block offset
`2^63` lies far beyond the image's end. -/
def c5img : List Nat :=
  List.replicate 0x10 0 ++ HIKBTREE_SIGNATURE ++ List.replicate 0x40 0 ++
    [0, 1, 0, 0, 0, 0, 0, 0] ++ List.replicate 0xB0 0 ++
    [1, 0, 0, 0] ++ List.replicate 0xC 0 ++ List.replicate 8 0xFF ++
    List.replicate 0x38 0 ++ c5slot

/-- Index image whose single page at 0x100 has entry count 0 and a
next-page pointer at 0x120 that points back to 0x100 itself: the chain
never reaches `END_OF_CHAIN`. -/
def c2img : List Nat :=
  List.replicate 0x10 0 ++ HIKBTREE_SIGNATURE ++ List.replicate 0x40 0 ++
    [0, 1, 0, 0, 0, 0, 0, 0] ++ List.replicate 0xC0 0 ++
    [0, 1, 0, 0, 0, 0, 0, 0]

/-- A live completed slot: channel 1, start 10, end 20, offset 1. -/
def c7slot1 : List Nat :=
  List.replicate 17 0 ++ [1] ++ List.replicate 6 0 ++ [10, 0, 0, 0] ++
    [20, 0, 0, 0] ++ [1, 0, 0, 0, 0, 0, 0, 0] ++ List.replicate 8 0

/-- A tombstoned slot (u64 at `+0x8` is 1). -/
def c7slot2 : List Nat :=
  List.replicate 8 0 ++ [1] ++ List.replicate 39 0

/-- A live in-progress slot: channel 2, start field `0x7FFFFFFF`
(recording sentinel), offset 2. -/
def c7slot3 : List Nat :=
  List.replicate 17 0 ++ [2] ++ List.replicate 6 0 ++
    [255, 255, 255, 127] ++ [0, 0, 0, 0] ++
    [2, 0, 0, 0, 0, 0, 0, 0] ++ List.replicate 8 0

/-- Index image for C7: garbage (`EE..EE`, a wild pointer under the old
`+0x50` indirection layout) at 0x50, the real first-page pointer at
0x58, one page with three slots: live, tombstoned, live-recording. -/
def c7img : List Nat :=
  List.replicate 0x10 0 ++ HIKBTREE_SIGNATURE ++ List.replicate 0x38 0 ++
    List.replicate 8 0xEE ++ [0, 1, 0, 0, 0, 0, 0, 0] ++
    List.replicate 0xB0 0 ++ [3, 0, 0, 0] ++ List.replicate 0xC 0 ++
    List.replicate 8 0xFF ++ List.replicate 0x38 0 ++
    c7slot1 ++ c7slot2 ++ c7slot3

end Hik


namespace Hik

/-! ### Claim C2 -/

/-- `parse_hbtree` (either variant) applied to a self-pointing first
page: the guard runs the chain down and flags the overrun; in
`hikvision_parser.py` the flag is the printed warning. -/
theorem parse_hbtree_core_selfloop (limit : Nat) (data : List Nat)
    (mb : MasterBlock) (p n : Nat) (es : List HIKBTREEEntry)
    (hsig : listSlice data (mb.offset_hibtree1 + 0x10)
      (mb.offset_hibtree1 + 0x18) = HIKBTREE_SIGNATURE)
    (hfirst : to_uint64 data (mb.offset_hibtree1 + 0x58) = some p)
    (h1 : to_uint32 data (p + 0x10) = some n)
    (h2 : to_uint64 data (p + 0x20) = some p)
    (h3 : parse_entries data (p + 0x60) 0 n = Except.ok es)
    (hp : p ≠ 0xFFFFFFFFFFFFFFFF) :
    parse_hbtree_core limit data mb =
      HbtRes.ok ⟨(List.replicate (limit + 1) es).flatten, limit + 1,
        true⟩ := by
  unfold parse_hbtree_core
  rw [if_neg (not_ne_iff.mpr hsig), hfirst]
  show hbt_loop data limit p 0 [] 0 (limit + 1) = _
  rw [hbt_loop_selfloop data limit h1 h2 h3 hp (limit + 1) 0 [] 0
    (by omega) (by omega)]
  simp

/-- C2 (amended): the traversal always terminates, but the guard fires
one page late: `hikvision_parser.py` visits at most
`MAX_INDEX_PAGES + 1 = 1001` pages (not 1000), prints the warning and
returns the accumulated catalog; `hikextractor.py` uses the limit 100
(at most 101 pages) and prints nothing.  On an index whose first page
points to itself, the hv traversal visits exactly 1001 pages. -/
theorem c2_traversal_bounded (data : List Nat) (mb : MasterBlock) :
    (parse_hbtree_hv data mb).pages ≤ 1001 ∧
    (parse_hbtree data mb).pages ≤ 101 ∧
    (∀ p n es,
      listSlice data (mb.offset_hibtree1 + 0x10)
        (mb.offset_hibtree1 + 0x18) = HIKBTREE_SIGNATURE →
      to_uint64 data (mb.offset_hibtree1 + 0x58) = some p →
      to_uint32 data (p + 0x10) = some n →
      to_uint64 data (p + 0x20) = some p →
      parse_entries data (p + 0x60) 0 n = Except.ok es →
      p ≠ 0xFFFFFFFFFFFFFFFF →
      parse_hbtree_hv data mb =
        HbtRes.ok ⟨(List.replicate 1001 es).flatten, 1001, true⟩) := by
  refine ⟨parse_hbtree_core_pages 1000 data mb,
    parse_hbtree_core_pages 100 data mb, ?_⟩
  intro p n es hsig hfirst h1 h2 h3 hp
  exact parse_hbtree_core_selfloop 1000 data mb p n es hsig hfirst h1 h2 h3 hp

/-- Counterexample to claim C2 as stated: on `c2img`, whose only page
points to itself, the `hikvision_parser.py` traversal visits 1001 pages
— more than `MAX_INDEX_PAGES = 1000`. -/
theorem c2_counterexample :
    to_uint64 c2img (0x100 + 0x20) = some 0x100 ∧
    (parse_hbtree_hv c2img mb0).pages = 1001 ∧
    ¬((parse_hbtree_hv c2img mb0).pages ≤ 1000) := by
  have hloop := parse_hbtree_core_selfloop 1000 c2img mb0 0x100 0 []
    (by decide) (by decide) (by decide) (by decide) (by rfl) (by decide)
  refine ⟨by decide, ?_, ?_⟩
  · show (parse_hbtree_core 1000 c2img mb0).pages = 1001
    rw [hloop]
    rfl
  · show ¬(parse_hbtree_core 1000 c2img mb0).pages ≤ 1000
    rw [hloop]
    decide

end Hik

namespace Hik

/-! ### Claim C4 -/

/-- C4 (amended): every catalog entry is either an in-progress recording
with both timestamps absent, or a completed segment with both timestamps
present — but no ordering `start ≤ end` is enforced by the code. -/
theorem c4_recording_timestamps (limit : Nat) (data : List Nat)
    (mb : MasterBlock) :
    ∀ e ∈ (parse_hbtree_core limit data mb).getEntries,
      (e.recording = true ∧ e.start_timestamp = none ∧
          e.end_timestamp = none) ∨
        (e.recording = false ∧ (∃ s, e.start_timestamp = some s) ∧
          (∃ t, e.end_timestamp = some t)) := by
  intro e he
  obtain ⟨o, ho⟩ := parse_hbtree_core_mem limit data mb e he
  exact (parse_hbt_entry_shape ho).2

set_option maxRecDepth 8000 in
/-- Witness for C4's amended invariant: the recording entry of the
`c7img` catalog. -/
theorem c4_recording_timestamps_witness :
    ((⟨2, true, true, none, none, 2⟩ : HIKBTREEEntry).recording = true ∧
        (⟨2, true, true, none, none, 2⟩ : HIKBTREEEntry).start_timestamp
          = none ∧
        (⟨2, true, true, none, none, 2⟩ : HIKBTREEEntry).end_timestamp
          = none) ∨
      ((⟨2, true, true, none, none, 2⟩ : HIKBTREEEntry).recording = false ∧
        (∃ s, (⟨2, true, true, none, none, 2⟩ :
          HIKBTREEEntry).start_timestamp = some s) ∧
        (∃ t, (⟨2, true, true, none, none, 2⟩ :
          HIKBTREEEntry).end_timestamp = some t)) :=
  c4_recording_timestamps 100 c7img mb0 ⟨2, true, true, none, none, 2⟩
    (by decide)

/-- Counterexample to claim C4 as stated: the catalog of `c4img` holds a
completed entry with `start = 2 > end = 1`; the traversal never checks
`start ≤ end`. -/
theorem c4_counterexample :
    parse_hbtree c4img mb0 =
      HbtRes.ok ⟨[⟨7, true, false, some 2, some 1, 5⟩], 1, false⟩ ∧
    (⟨7, true, false, some 2, some 1, 5⟩ :
        HIKBTREEEntry).recording = false ∧
    ¬((2 : Nat) ≤ 1) := by
  refine ⟨by decide, by decide, by decide⟩

/-! ### Claim C5 -/

/-- C5 (amended): the traversal performs no containment check — each
catalog entry is exactly the decode of some 48-byte slot, its
`offset_datablock` taken verbatim from the slot, so
`offset_datablock + size_data_block` may exceed the image length. -/
theorem c5_entries_are_slot_decodes (limit : Nat) (data : List Nat)
    (mb : MasterBlock) :
    ∀ e ∈ (parse_hbtree_core limit data mb).getEntries,
      ∃ o, parse_hbt_entry data o = Except.ok (some e) := by
  intro e he
  exact parse_hbtree_core_mem limit data mb e he

set_option maxRecDepth 8000 in
/-- Witness for C5's amended statement: the big-offset entry of `c5img`
is the decode of the slot at 0x160. -/
theorem c5_entries_are_slot_decodes_witness :
    ∃ o, parse_hbt_entry c5img o =
      Except.ok (some ⟨7, true, false, some 2, some 3,
        9223372036854775808⟩) :=
  c5_entries_are_slot_decodes 100 c5img mb5
    ⟨7, true, false, some 2, some 3, 9223372036854775808⟩ (by decide)

set_option maxRecDepth 8000 in
/-- Counterexample to claim C5 as stated: `c5img` is 0x190 bytes long,
yet its catalog entry has `offset_datablock = 2^63`, so
`offset_datablock + size_data_block` is far beyond the image length. -/
theorem c5_counterexample :
    parse_hbtree c5img mb5 =
      HbtRes.ok ⟨[⟨7, true, false, some 2, some 3,
        9223372036854775808⟩], 1, false⟩ ∧
    c5img.length = 0x190 ∧
    mb5.size_data_block = 0x100000 ∧
    ¬((9223372036854775808 + 0x100000 : Nat) ≤ 0x190) := by
  refine ⟨by decide, by decide, by decide, by decide⟩

end Hik

namespace Hik

/-! ### Claim C7 -/

set_option maxRecDepth 8000 in
/-- C7: the traversal fails with `BadIndexMagic` iff the 8 bytes at
`primary_index_offset + 0x10` differ from `HIKBTREE`; and on `c7img` —
whose bytes at `+0x50` are the garbage pointer `EE..EE` that the older
`+0x50` indirection layout would dereference — it reads the first page
offset directly from `+0x58`, decodes the three 48-byte slots from
`page + 0x60`, drops the tombstoned one and returns the two survivors in
on-disk slot order. -/
theorem c7_index_layout :
    (∀ (data : List Nat) (mb : MasterBlock),
      (∃ pgs, parse_hbtree data mb = HbtRes.err PErr.badIndexMagic pgs) ↔
        listSlice data (mb.offset_hibtree1 + 0x10)
          (mb.offset_hibtree1 + 0x18) ≠ HIKBTREE_SIGNATURE) ∧
    listSlice c7img 0x50 0x58 = List.replicate 8 0xEE ∧
    parse_hbtree c7img mb0 =
      HbtRes.ok ⟨[⟨1, true, false, some 10, some 20, 1⟩,
                  ⟨2, true, true, none, none, 2⟩], 1, false⟩ := by
  refine ⟨?_, by decide, by decide⟩
  intro data mb
  exact parse_hbtree_core_badmagic 100 data mb

end Hik

namespace Hik

/-! ### Claim C8 -/

/-- A live slot: channel 1, start 2, end 3, data-block offset 5. -/
def c8slotA : List Nat :=
  List.replicate 17 0 ++ [1] ++ List.replicate 6 0 ++ [2, 0, 0, 0] ++
    [3, 0, 0, 0] ++ [5, 0, 0, 0, 0, 0, 0, 0] ++ List.replicate 8 0

/-- A live slot: channel 2, start 4, end 6, the same data-block
offset 5. -/
def c8slotB : List Nat :=
  List.replicate 17 0 ++ [2] ++ List.replicate 6 0 ++ [4, 0, 0, 0] ++
    [6, 0, 0, 0] ++ [5, 0, 0, 0, 0, 0, 0, 0] ++ List.replicate 8 0

/-- Index image with one page and two live slots sharing the same
data-block offset. -/
def c8img : List Nat :=
  List.replicate 0x10 0 ++ HIKBTREE_SIGNATURE ++ List.replicate 0x40 0 ++
    [0, 1, 0, 0, 0, 0, 0, 0] ++ List.replicate 0xB0 0 ++
    [2, 0, 0, 0] ++ List.replicate 0xC 0 ++ List.replicate 8 0xFF ++
    List.replicate 0x38 0 ++ c8slotA ++ c8slotB

/-- C8 (amended): the `--physical-order` sort makes the data-block
offsets non-increasing along the output; they are strictly decreasing
only when the catalog's offsets are pairwise distinct (Python's `sorted`
keeps duplicates adjacent and equal). -/
theorem c8_physical_ordering (l : List HIKBTREEEntry) :
    (sortPhysical l).Pairwise
        (fun a b => b.offset_datablock ≤ a.offset_datablock) ∧
    ((l.map (fun e => e.offset_datablock)).Nodup →
      (sortPhysical l).Pairwise
        (fun a b => b.offset_datablock < a.offset_datablock)) := by
  have hsorted : (sortPhysical l).Pairwise
      (fun a b =>
        decide (b.offset_datablock ≤ a.offset_datablock) = true) := by
    unfold sortPhysical
    exact List.sorted_mergeSort
      (fun a b c hab hbc => by
        simp only [decide_eq_true_eq] at hab hbc ⊢
        omega)
      (fun a b => by
        simp only [Bool.or_eq_true, decide_eq_true_eq]
        omega)
      l
  have hle : (sortPhysical l).Pairwise
      (fun a b => b.offset_datablock ≤ a.offset_datablock) :=
    hsorted.imp (fun h => by
      simp only [decide_eq_true_eq] at h
      exact h)
  refine ⟨hle, ?_⟩
  intro hnd
  have hperm : (sortPhysical l).Perm l :=
    List.mergeSort_perm l _
  have hnd2 : ((sortPhysical l).map (fun e => e.offset_datablock)).Nodup :=
    ((hperm.map (fun e => e.offset_datablock)).nodup_iff).mpr hnd
  have hne : (sortPhysical l).Pairwise
      (fun a b => a.offset_datablock ≠ b.offset_datablock) :=
    List.pairwise_map.mp hnd2
  have := hle.and hne
  exact this.imp (fun h => lt_of_le_of_ne h.1 (Ne.symm h.2))

set_option maxRecDepth 8000 in
/-- Witness for C8's amended ordering at the concrete `c8img` catalog
(two entries, equal offsets: the non-strict conclusion holds, the
distinctness hypothesis of the strict part fails). -/
theorem c8_physical_ordering_witness :
    (sortPhysical (parse_hbtree c8img mb0).getEntries).Pairwise
      (fun a b => b.offset_datablock ≤ a.offset_datablock) :=
  (c8_physical_ordering (parse_hbtree c8img mb0).getEntries).1

set_option maxRecDepth 8000 in
/-- Counterexample to claim C8 as stated: the `c8img` catalog has two
entries with the same data-block offset 5, so the physically ordered
output cannot be strictly decreasing. -/
theorem c8_counterexample :
    (parse_hbtree c8img mb0).getEntries.map
        (fun e => e.offset_datablock) = [5, 5] ∧
    ¬(sortPhysical (parse_hbtree c8img mb0).getEntries).Pairwise
        (fun a b => a.offset_datablock > b.offset_datablock) := by
  have hmap : (parse_hbtree c8img mb0).getEntries.map
      (fun e => e.offset_datablock) = [5, 5] := by decide
  refine ⟨hmap, ?_⟩
  intro hpw
  have hperm : (sortPhysical (parse_hbtree c8img mb0).getEntries).Perm
      (parse_hbtree c8img mb0).getEntries :=
    List.mergeSort_perm _ _
  have hnd : ((sortPhysical (parse_hbtree c8img mb0).getEntries).map
      (fun e => e.offset_datablock)).Nodup :=
    List.pairwise_map.mpr
      (hpw.imp (fun h => Nat.ne_of_gt h))
  have hnd2 : ((parse_hbtree c8img mb0).getEntries.map
      (fun e => e.offset_datablock)).Nodup :=
    ((hperm.map (fun e => e.offset_datablock)).nodup_iff).mp hnd
  rw [hmap] at hnd2
  simp at hnd2

end Hik

namespace Hik

/-! ### Claim C6: master block decoding -/

/-- The little-endian value of the `w` bytes at offset `o` (base-256
fold over the Python slice `l[o : o+w]`). -/
def readLE (l : List Nat) (o w : Nat) : Nat :=
  ((l.drop o).take w).foldr (fun b acc => b + 256 * acc) 0

theorem list_len4 {xs : List Nat} (h : xs.length = 4) :
    ∃ a b c d, xs = [a, b, c, d] := by
  rcases xs with _ | ⟨a, xs⟩
  · simp at h
  rcases xs with _ | ⟨b, xs⟩
  · simp at h
  rcases xs with _ | ⟨c, xs⟩
  · simp at h
  rcases xs with _ | ⟨d, xs⟩
  · simp at h
  rcases xs with _ | ⟨e, xs⟩
  · exact ⟨a, b, c, d, rfl⟩
  · simp only [List.length_cons] at h
    omega

theorem list_len8 {xs : List Nat} (h : xs.length = 8) :
    ∃ a b c d e f g k, xs = [a, b, c, d, e, f, g, k] := by
  rcases xs with _ | ⟨a, xs⟩
  · simp at h
  rcases xs with _ | ⟨b, xs⟩
  · simp at h
  rcases xs with _ | ⟨c, xs⟩
  · simp at h
  rcases xs with _ | ⟨d, xs⟩
  · simp at h
  rcases xs with _ | ⟨e, xs⟩
  · simp at h
  rcases xs with _ | ⟨f, xs⟩
  · simp at h
  rcases xs with _ | ⟨g, xs⟩
  · simp at h
  rcases xs with _ | ⟨k, xs⟩
  · simp at h
  rcases xs with _ | ⟨m, xs⟩
  · exact ⟨a, b, c, d, e, f, g, k, rfl⟩
  · simp only [List.length_cons] at h
    omega

theorem to_uint32_readLE {l : List Nat} {o : Nat} (h : o + 4 ≤ l.length) :
    to_uint32 l o = some (readLE l o 4) := by
  have hlen : ((l.drop o).take 4).length = 4 := by
    rw [List.length_take, List.length_drop]
    omega
  obtain ⟨a, b, c, d, hxs⟩ := list_len4 hlen
  unfold to_uint32 readLE
  rw [hxs]
  show some _ = some _
  congr 1
  simp only [List.foldr]
  ring

theorem to_uint64_readLE {l : List Nat} {o : Nat} (h : o + 8 ≤ l.length) :
    to_uint64 l o = some (readLE l o 8) := by
  have hlen : ((l.drop o).take 8).length = 8 := by
    rw [List.length_take, List.length_drop]
    omega
  obtain ⟨a, b, c, d, e, f, g, k, hxs⟩ := list_len8 hlen
  unfold to_uint64 readLE
  rw [hxs]
  show some _ = some _
  congr 1
  simp only [List.foldr]
  ring

theorem to_datetime_readLE {l : List Nat} {o : Nat}
    (h : o + 4 ≤ l.length) : to_datetime l o = some (readLE l o 4) :=
  to_uint32_readLE h

theorem to_uint32_oor {l : List Nat} {o : Nat} (h : l.length < o + 4) :
    to_uint32 l o = none := by
  have hlen : ((l.drop o).take 4).length < 4 := by
    rw [List.length_take, List.length_drop]
    have := Nat.min_le_right 4 (l.length - o)
    omega
  unfold to_uint32
  cases hxs : (l.drop o).take 4 with
  | nil => rfl
  | cons b0 t0 =>
    cases t0 with
    | nil => rfl
    | cons b1 t1 =>
      cases t1 with
      | nil => rfl
      | cons b2 t2 =>
        cases t2 with
        | nil => rfl
        | cons b3 t3 =>
          cases t3 with
          | nil =>
            rw [hxs] at hlen
            simp at hlen
          | cons b4 t4 => rfl

theorem to_datetime_oor {l : List Nat} {o : Nat} (h : l.length < o + 4) :
    to_datetime l o = none :=
  to_uint32_oor h

/-- Slicing a slice is slicing the original at translated offsets, as
long as the window fits inside the outer slice. -/
theorem listSlice_listSlice (l : List Nat) (A B a b : Nat)
    (h : b - a ≤ B - A - a) :
    listSlice (listSlice l A B) a b = listSlice l (A + a) (A + b) := by
  unfold listSlice
  rw [List.drop_take, List.drop_drop, List.take_take]
  rw [min_eq_left h]
  congr 1
  omega

end Hik

namespace Hik

/-- The C6 claim, amended, as a reference decoder: `BadMagic` when the
18 bytes at absolute offset 0x210 differ from `MASTER_MAGIC` (also when
the image is too short to contain them); with matching magic,
`OutOfRange` exactly when the image is shorter than 0x2F4 bytes (the
last field read ends at `0x200 + 0xF4`, not at `MASTER_OFFSET +
MASTER_LEN = 0x360`); otherwise a `MasterBlock` whose fields are decoded
little-endian from the fixed offsets of the layout table. -/
def parse_master_block_model (img : List Nat) : Except MErr MasterBlock :=
  if listSlice img 0x210 0x222 ≠ SIGNATURE then
    Except.error MErr.badMagic
  else if img.length < 0x2F4 then
    Except.error MErr.outOfRange
  else
    Except.ok
      { signature := SIGNATURE,
        version := listSlice img 0x230 0x23E,
        capacity := readLE (listSlice img 0x200 0x360) 0x48 8,
        offset_system_logs := readLE (listSlice img 0x200 0x360) 0x60 8,
        size_system_logs := readLE (listSlice img 0x200 0x360) 0x68 8,
        offset_video_area := readLE (listSlice img 0x200 0x360) 0x78 8,
        size_data_block := readLE (listSlice img 0x200 0x360) 0x88 8,
        total_data_blocks := readLE (listSlice img 0x200 0x360) 0x90 4,
        offset_hibtree1 := readLE (listSlice img 0x200 0x360) 0x98 8,
        size_hibtree1 := readLE (listSlice img 0x200 0x360) 0xA0 4,
        offset_hibtree2 := readLE (listSlice img 0x200 0x360) 0xA8 8,
        size_hibtree2 := readLE (listSlice img 0x200 0x360) 0xB0 4,
        time_system_init := readLE (listSlice img 0x200 0x360) 0xF0 4 }

/-- When the control region is shorter than 0xF4 bytes some
`struct.unpack` read raises, so the field walk returns `outOfRange`. -/
theorem readMasterFields_oor {master : List Nat}
    (h : master.length < 0xF4) :
    readMasterFields master = Except.error MErr.outOfRange := by
  unfold readMasterFields
  cases hx1 : to_uint64 master 0x48 with
  | none => rfl
  | some v1 =>
  cases hx2 : to_uint64 master 0x60 with
  | none => rfl
  | some v2 =>
  cases hx3 : to_uint64 master 0x68 with
  | none => rfl
  | some v3 =>
  cases hx4 : to_uint64 master 0x78 with
  | none => rfl
  | some v4 =>
  cases hx5 : to_uint64 master 0x88 with
  | none => rfl
  | some v5 =>
  cases hx6 : to_uint32 master 0x90 with
  | none => rfl
  | some v6 =>
  cases hx7 : to_uint64 master 0x98 with
  | none => rfl
  | some v7 =>
  cases hx8 : to_uint32 master 0xA0 with
  | none => rfl
  | some v8 =>
  cases hx9 : to_uint64 master 0xA8 with
  | none => rfl
  | some v9 =>
  cases hx10 : to_uint32 master 0xB0 with
  | none => rfl
  | some v10 =>
  rw [to_datetime_oor (by omega)]

theorem master_slice_length (img : List Nat) :
    (listSlice img 0x200 0x360).length =
      min 0x160 (img.length - 0x200) := by
  unfold listSlice
  rw [List.length_take, List.length_drop]

/-- C6 (amended): `parse_master_block` coincides with
`parse_master_block_model` on every image — in particular a good-magic
image needs only 0x2F4 bytes, not `MASTER_OFFSET + MASTER_LEN = 0x360`,
and a short or zero-filled image fails with `BadMagic`, never
`OutOfRange`, when its signature bytes mismatch. -/
theorem c6_master_decode (img : List Nat) :
    parse_master_block img = parse_master_block_model img := by
  have hsig : listSlice (listSlice img 0x200 0x360) 0x10 0x22 =
      listSlice img 0x210 0x222 :=
    listSlice_listSlice img 0x200 0x360 0x10 0x22 (by norm_num)
  simp only [parse_master_block, parse_master_block_model, hsig]
  by_cases h1 : listSlice img 0x210 0x222 = SIGNATURE
  · rw [if_neg (not_ne_iff.mpr h1), if_neg (not_ne_iff.mpr h1)]
    by_cases h2 : img.length < 0x2F4
    · rw [if_pos h2]
      have hm : (listSlice img 0x200 0x360).length < 0xF4 := by
        rw [master_slice_length]
        have := Nat.min_le_right 0x160 (img.length - 0x200)
        omega
      exact readMasterFields_oor hm
    · rw [if_neg h2]
      have hm : 0xF4 ≤ (listSlice img 0x200 0x360).length := by
        rw [master_slice_length]
        omega
      have hver : listSlice (listSlice img 0x200 0x360) 0x30 0x3E =
          listSlice img 0x230 0x23E :=
        listSlice_listSlice img 0x200 0x360 0x30 0x3E (by norm_num)
      unfold readMasterFields
      rw [to_uint64_readLE (by omega), to_uint64_readLE (by omega),
        to_uint64_readLE (by omega), to_uint64_readLE (by omega),
        to_uint64_readLE (by omega), to_uint32_readLE (by omega),
        to_uint64_readLE (by omega), to_uint32_readLE (by omega),
        to_uint64_readLE (by omega), to_uint32_readLE (by omega),
        to_datetime_readLE (by omega)]
      show Except.ok _ = Except.ok _
      congr 1
      rw [MasterBlock.mk.injEq]
      exact ⟨hsig.trans h1, hver, rfl, rfl, rfl, rfl, rfl, rfl, rfl,
        rfl, rfl, rfl, rfl⟩
  · rw [if_pos (by exact h1), if_pos (by exact h1)]

end Hik

namespace Hik

/-- A 0x2F4-byte image: zeros everywhere except the master signature at
absolute offset 0x210. -/
def c6img : List Nat :=
  List.replicate 0x210 0 ++ SIGNATURE ++ List.replicate 0xD2 0

set_option maxRecDepth 8000 in
/-- Counterexample to claim C6 as stated: `c6img` is shorter than
`MASTER_OFFSET + MASTER_LEN = 0x360` bytes, yet the decoder returns a
`MasterBlock` instead of failing with `OutOfRange` — every field read
ends by relative offset 0xF4, so 0x2F4 bytes suffice. -/
theorem c6_counterexample :
    c6img.length = 0x2F4 ∧
    c6img.length < 0x360 ∧
    listSlice c6img 0x210 0x222 = SIGNATURE ∧
    parse_master_block c6img =
      Except.ok ⟨SIGNATURE, List.replicate 14 0,
        0, 0, 0, 0, 0, 0, 0, 0, 0, 0, 0⟩ := by
  refine ⟨by decide, by decide, by decide, by rfl⟩

end Hik

namespace Hik

/-! ### Claim C9: filename collision resolution -/

theorem digitChar_inj_lt :
    ∀ a < 10, ∀ b < 10, Nat.digitChar a = Nat.digitChar b → a = b := by
  decide

theorem map_digitChar_inj :
    ∀ {l1 l2 : List Nat}, (∀ x ∈ l1, x < 10) → (∀ x ∈ l2, x < 10) →
      l1.map Nat.digitChar = l2.map Nat.digitChar → l1 = l2 := by
  intro l1
  induction l1 with
  | nil =>
    intro l2 _ _ h
    cases l2 with
    | nil => rfl
    | cons b t => simp at h
  | cons a t1 ih =>
    intro l2 h1 h2 h
    cases l2 with
    | nil => simp at h
    | cons b t2 =>
      simp only [List.map_cons, List.cons.injEq] at h
      have ha : a = b :=
        digitChar_inj_lt a (h1 a (List.mem_cons_self a t1)) b
          (h2 b (List.mem_cons_self b t2)) h.1
      have ht : t1 = t2 :=
        ih (fun x hx => h1 x (List.mem_cons_of_mem a hx))
          (fun x hx => h2 x (List.mem_cons_of_mem b hx)) h.2
      rw [ha, ht]

theorem decRepr_inj {n m : Nat} (h : decRepr n = decRepr m) : n = m := by
  unfold decRepr at h
  have h2 := List.reverse_injective h
  have h3 : Nat.digits 10 n = Nat.digits 10 m :=
    map_digitChar_inj
      (fun x hx => Nat.digits_lt_base (by norm_num) hx)
      (fun x hx => Nat.digits_lt_base (by norm_num) hx) h2
  have h4 := congrArg (Nat.ofDigits 10) h3
  rwa [Nat.ofDigits_digits, Nat.ofDigits_digits] at h4

theorem decRepr_ne_nil {n : Nat} (h : 1 ≤ n) : decRepr n ≠ [] := by
  unfold decRepr
  simp only [ne_eq, List.reverse_eq_nil_iff, List.map_eq_nil_iff,
    Nat.digits_ne_nil_iff_ne_zero]
  omega

theorem insertAt_length (f rep : List Char) (q : Nat) :
    (f.take q ++ '_' :: rep ++ f.drop q).length =
      f.length + 1 + rep.length := by
  simp only [List.length_append, List.length_cons, List.length_take,
    List.length_drop]
  rcases Nat.le_total q f.length with h | h
  · rw [min_eq_left h]
    omega
  · rw [min_eq_right h]
    omega

theorem mkCandidate_length (filename : List Char) (c : Nat) :
    (mkCandidate filename c).length =
      filename.length + 1 + (decRepr c).length := by
  unfold mkCandidate
  cases pyRfindDot filename with
  | some p => exact insertAt_length filename (decRepr c) p
  | none => exact insertAt_length filename (decRepr c) (filename.length - 1)

theorem mkCandidate_ne_filename (filename : List Char) {c : Nat}
    (h : 1 ≤ c) : mkCandidate filename c ≠ filename := by
  intro heq
  have hlen := congrArg List.length heq
  rw [mkCandidate_length] at hlen
  have hne : 0 < (decRepr c).length :=
    List.length_pos.mpr (decRepr_ne_nil h)
  omega

theorem mkCandidate_inj (filename : List Char) {c c' : Nat}
    (h : mkCandidate filename c = mkCandidate filename c') : c = c' := by
  unfold mkCandidate at h
  cases hpf : pyRfindDot filename with
  | some p =>
    simp only [hpf] at h
    have h2 := List.append_cancel_right h
    have h3 := List.append_cancel_left h2
    injection h3 with h4 h5
    exact decRepr_inj h5
  | none =>
    simp only [hpf] at h
    have h2 := List.append_cancel_right h
    have h3 := List.append_cancel_left h2
    injection h3 with h4 h5
    exact decRepr_inj h5

end Hik

namespace Hik

/-- Removing from the directory listing a file that the loop will never test
again does not change the loop's result. -/
theorem rename_loop_erase (filename x : List Char) :
    ∀ (fuel : Nat) (fs : List (List Char)) (new : List Char) (count : Nat),
      new ≠ x → (∀ j, count ≤ j → mkCandidate filename j ≠ x) →
      rename_loop (fs.erase x) filename new count fuel =
        rename_loop fs filename new count fuel := by
  intro fuel
  induction fuel with
  | zero => intro fs new count _ _; rfl
  | succ n ih =>
    intro fs new count hnew hfut
    simp only [rename_loop]
    by_cases hmem : new ∈ fs
    · rw [if_pos hmem, if_pos ((List.mem_erase_of_ne hnew).mpr hmem)]
      exact ih fs (mkCandidate filename count) (count + 1)
        (hfut count (le_refl count)) (fun j hj => hfut j (by omega))
    · rw [if_neg hmem, if_neg (fun hc => hmem (List.mem_of_mem_erase hc))]

/-- Total-correctness of the `while os.path.exists` loop: with fuel exceeding
the number of existing paths it terminates, and it returns either the tested
name (when free) or the first free candidate generated from `count` upward. -/
theorem rename_loop_spec (filename : List Char) :
    ∀ (N : Nat) (fs : List (List Char)) (new : List Char) (count : Nat),
      fs.length ≤ N → 1 ≤ count →
      (∀ j, count ≤ j → mkCandidate filename j ≠ new) →
      ∃ r, rename_loop fs filename new count (N + 1) = some r ∧
        ((r = new ∧ new ∉ fs) ∨
          (∃ k, count ≤ k ∧ r = mkCandidate filename k ∧
            mkCandidate filename k ∉ fs ∧ new ∈ fs ∧
            ∀ j, count ≤ j → j < k → mkCandidate filename j ∈ fs)) := by
  intro N
  induction N with
  | zero =>
    intro fs new count hlen _ _
    cases fs with
    | cons a t => exact absurd hlen (by simp)
    | nil =>
      refine ⟨new, ?_, Or.inl ⟨rfl, by simp⟩⟩
      simp [rename_loop]
  | succ n ih =>
    intro fs new count hlen hcount hfut
    by_cases hmem : new ∈ fs
    · have hlen2 : (fs.erase new).length ≤ n := by
        rw [List.length_erase_of_mem hmem]
        have hpos : 0 < fs.length := List.length_pos_of_mem hmem
        omega
      have hfut2 : ∀ j, count + 1 ≤ j →
          mkCandidate filename j ≠ mkCandidate filename count := by
        intro j hj heq
        have := mkCandidate_inj filename heq
        omega
      obtain ⟨r, hr, hcase⟩ :=
        ih (fs.erase new) (mkCandidate filename count) (count + 1) hlen2
          (by omega) hfut2
      refine ⟨r, ?_, ?_⟩
      · show (if new ∈ fs then
            rename_loop fs filename (mkCandidate filename count) (count + 1)
              (n + 1)
          else some new) = some r
        rw [if_pos hmem,
          ← rename_loop_erase filename new (n + 1) fs
            (mkCandidate filename count) (count + 1)
            (hfut count (le_refl count)) (fun j hj => hfut j (by omega))]
        exact hr
      · right
        rcases hcase with ⟨hre, hnm⟩ | ⟨k, hk1, hk2, hk3, hk4, hk5⟩
        · refine ⟨count, le_refl count, hre, ?_, hmem, ?_⟩
          · intro hc
            exact hnm
              ((List.mem_erase_of_ne (hfut count (le_refl count))).mpr hc)
          · intro j hj1 hj2
            exact absurd hj2 (by omega)
        · refine ⟨k, by omega, hk2, ?_, hmem, ?_⟩
          · intro hc
            exact hk3 ((List.mem_erase_of_ne (hfut k (by omega))).mpr hc)
          · intro j hj1 hj2
            rcases Nat.eq_or_lt_of_le hj1 with hje | hjl
            · rw [← hje]
              exact List.mem_of_mem_erase hk4
            · exact List.mem_of_mem_erase (hk5 j (by omega) hj2)
    · refine ⟨new, ?_, Or.inl ⟨rfl, hmem⟩⟩
      show (if new ∈ fs then
          rename_loop fs filename (mkCandidate filename count) (count + 1)
            (n + 1)
        else some new) = some new
      rw [if_neg hmem]

end Hik

namespace Hik

/-- C9: for a filename with an extension, `rename_file_if_exists` returns the
filename unchanged when it is not among the existing paths; otherwise it
inserts `_k` before the extension for the smallest `k ≥ 1` whose candidate is
free; and running the policy again against a directory that already contains
the first output yields a second, distinct path with such a suffix. -/
theorem c9_rename_collision (fs : List (List Char)) (filename : List Char)
    (_hdot : '.' ∈ filename) :
    (filename ∉ fs → rename_file_if_exists fs filename = some filename) ∧
    (filename ∈ fs →
      ∃ k, 1 ≤ k ∧
        rename_file_if_exists fs filename = some (mkCandidate filename k) ∧
        mkCandidate filename k ∉ fs ∧
        ∀ j, 1 ≤ j → j < k → mkCandidate filename j ∈ fs) ∧
    (filename ∉ fs →
      ∃ k, 1 ≤ k ∧
        rename_file_if_exists fs filename = some filename ∧
        rename_file_if_exists (filename :: fs) filename =
          some (mkCandidate filename k) ∧
        mkCandidate filename k ≠ filename) := by
  have hfut : ∀ j, 1 ≤ j → mkCandidate filename j ≠ filename :=
    fun j hj => mkCandidate_ne_filename filename hj
  obtain ⟨r, hr, hcase⟩ :=
    rename_loop_spec filename (fs.length + 1) fs filename 1
      (by omega) (le_refl 1) hfut
  obtain ⟨r2, hr2, hcase2⟩ :=
    rename_loop_spec filename ((filename :: fs).length + 1) (filename :: fs)
      filename 1 (by omega) (le_refl 1) hfut
  have hmem2 : filename ∈ filename :: fs := List.mem_cons_self filename fs
  refine ⟨?_, ?_, ?_⟩
  · intro hnin
    rcases hcase with ⟨hre, _⟩ | ⟨k, _, _, _, hin, _⟩
    · rw [hre] at hr
      exact hr
    · exact absurd hin hnin
  · intro hin
    rcases hcase with ⟨_, hnin⟩ | ⟨k, hk1, hk2, hk3, _, hk5⟩
    · exact absurd hin hnin
    · exact ⟨k, hk1, by rw [hk2] at hr; exact hr, hk3, hk5⟩
  · intro hnin
    rcases hcase2 with ⟨hre2, hnm2⟩ | ⟨k, hk1, hk2, hk3, _, _⟩
    · exact absurd hmem2 hnm2
    · refine ⟨k, hk1, ?_, ?_, hfut k hk1⟩
      · rcases hcase with ⟨hre, _⟩ | ⟨_, _, _, _, hin, _⟩
        · rw [hre] at hr
          exact hr
        · exact absurd hin hnin
      · rw [hk2] at hr2
        exact hr2

/-- Witness filename `a.m`. -/
def c9fn : List Char := ['a', '.', 'm']

/-- C9 witness: the theorem instantiated at filename `a.m` against a
directory that already contains it. -/
theorem c9_rename_collision_witness :
    (c9fn ∉ [c9fn] → rename_file_if_exists [c9fn] c9fn = some c9fn) ∧
    (c9fn ∈ [c9fn] →
      ∃ k, 1 ≤ k ∧
        rename_file_if_exists [c9fn] c9fn = some (mkCandidate c9fn k) ∧
        mkCandidate c9fn k ∉ [c9fn] ∧
        ∀ j, 1 ≤ j → j < k → mkCandidate c9fn j ∈ [c9fn]) ∧
    (c9fn ∉ [c9fn] →
      ∃ k, 1 ≤ k ∧
        rename_file_if_exists [c9fn] c9fn = some c9fn ∧
        rename_file_if_exists (c9fn :: [c9fn]) c9fn =
          some (mkCandidate c9fn k) ∧
        mkCandidate c9fn k ≠ c9fn) :=
  c9_rename_collision [c9fn] c9fn (by decide)

end Hik
